/-
Verification of the NemoSim SDK core (nemosdk) against its design
specification.  The Python sources under src/nemosdk are shallowly
embedded: Python floats become ℚ, Python ints become ℤ (or ℕ where the
source guarantees non-negativity), fallible code returns Except, and
filesystem effects are made explicit as a trace of events.
-/
import Mathlib

namespace NemoSim

/-- A minimal model of xml.etree.ElementTree trees: an element carries a
tag, attributes in insertion order, and an ordered list of children;
text content is a child node (as produced by the `_append_text` helper). -/
inductive Xml where
  | text (s : String) : Xml
  | elem (tag : String) (attrs : List (String × String)) (children : List Xml) : Xml
deriving Repr

/-- Tag of an element node, none for text nodes. -/
def Xml.tagOf : Xml → Option String
  | .text _ => none
  | .elem t _ _ => some t

/-- Children of an element node. -/
def Xml.childrenOf : Xml → List Xml
  | .text _ => []
  | .elem _ _ cs => cs

/-- Embedding of model.BIUNetworkDefaults: the global defaults dataclass.
Optional float fields are Option ℚ, optional int fields Option ℤ. -/
structure BIUNetworkDefaults where
  VTh : Option ℚ := none
  RLeak : Option ℚ := none
  refractory : Option ℤ := none
  VDD : Option ℚ := none
  Cn : Option ℚ := none
  Cu : Option ℚ := none
  fclk : Option ℚ := none
  DSBitWidth : Option ℤ := none
  DSClockMHz : Option ℚ := none
  DSMode : Option String := none
deriving Repr, DecidableEq

/-- Embedding of BIUNetworkDefaults.validate (model.py lines 34-40). -/
def BIUNetworkDefaults.validateE (d : BIUNetworkDefaults) : Except String Unit :=
  if d.DSBitWidth ≠ none ∧ d.DSBitWidth ≠ some 4 ∧ d.DSBitWidth ≠ some 8 then
    .error "DSBitWidth must be 4 or 8"
  else if d.DSClockMHz.any (fun c => decide (c ≤ 0)) then
    .error "DSClockMHz must be positive"
  else if d.DSMode ≠ none ∧ d.DSMode ≠ some "ThresholdMode" ∧
      d.DSMode ≠ some "FrequencyMode" ∧ d.DSMode ≠ some "" then
    .error "DSMode must be ThresholdMode or FrequencyMode"
  else
    .ok ()

/-- An optional positive quantity: trivially fine when unset. -/
def posIfSet : Option ℚ → Prop
  | none => True
  | some c => 0 < c

instance : (o : Option ℚ) → Decidable (posIfSet o)
  | none => .isTrue trivial
  | some c => inferInstanceAs (Decidable (0 < c))

/-- The conditions under which BIUNetworkDefaults.validate passes. -/
def defaultsOK (d : BIUNetworkDefaults) : Prop :=
  (d.DSBitWidth = none ∨ d.DSBitWidth = some 4 ∨ d.DSBitWidth = some 8) ∧
  posIfSet d.DSClockMHz ∧
  (d.DSMode = none ∨ d.DSMode = some "ThresholdMode" ∨
    d.DSMode = some "FrequencyMode" ∨ d.DSMode = some "")

instance (d : BIUNetworkDefaults) : Decidable (defaultsOK d) :=
  inferInstanceAs (Decidable (_ ∧ _ ∧ _))

/-- Embedding of model.Synapses: declared shape plus the weight matrix. -/
structure Synapses where
  rows : ℤ
  cols : ℤ
  weights : List (List ℚ)
deriving Repr, DecidableEq

/-- Embedding of Synapses.validate (model.py lines 54-61). -/
def Synapses.validateE (s : Synapses) : Except String Unit :=
  if s.rows ≤ 0 ∨ s.cols ≤ 0 then
    .error "synapses rows and cols must be positive"
  else if (s.weights.length : ℤ) ≠ s.rows then
    .error "weights must contain exactly rows rows"
  else if ∃ row ∈ s.weights, (row.length : ℤ) ≠ s.cols then
    .error "weights row must have exactly cols entries"
  else
    .ok ()

/-- The conditions under which Synapses.validate passes. -/
def synapsesOK (s : Synapses) : Prop :=
  0 < s.rows ∧ 0 < s.cols ∧ (s.weights.length : ℤ) = s.rows ∧
    ∀ row ∈ s.weights, (row.length : ℤ) = s.cols

instance (s : Synapses) : Decidable (synapsesOK s) := by
  unfold synapsesOK; infer_instance

/-- Embedding of model.NeuronOverrideRange; the source field `end` is a
Lean keyword and is rendered here as `endIdx` (inclusive upper bound). -/
structure NeuronOverrideRange where
  start : ℤ
  endIdx : ℤ
  VTh : Option ℚ := none
  RLeak : Option ℚ := none
  refractory : Option ℤ := none
deriving Repr, DecidableEq

/-- Embedding of NeuronOverrideRange.validate (model.py lines 73-77). -/
def NeuronOverrideRange.validateE (r : NeuronOverrideRange) (layerSize : ℤ) :
    Except String Unit :=
  if r.start < 0 ∨ r.endIdx < 0 ∨ r.endIdx < r.start then
    .error "NeuronRange indices must be valid and start le end"
  else if layerSize ≤ r.endIdx then
    .error "NeuronRange end out of bounds for layer size"
  else
    .ok ()

/-- Embedding of model.NeuronOverride. -/
structure NeuronOverride where
  index : ℤ
  VTh : Option ℚ := none
  RLeak : Option ℚ := none
  refractory : Option ℤ := none
deriving Repr, DecidableEq

/-- Embedding of NeuronOverride.validate (model.py lines 88-90). -/
def NeuronOverride.validateE (n : NeuronOverride) (layerSize : ℤ) :
    Except String Unit :=
  if n.index < 0 ∨ layerSize ≤ n.index then
    .error "Neuron index out of bounds for layer size"
  else
    .ok ()

/-- Embedding of model.Layer. -/
structure Layer where
  size : ℤ
  synapses : Synapses
  ranges : List NeuronOverrideRange := []
  neurons : List NeuronOverride := []
  probe : Option String := none
deriving Repr, DecidableEq

/-- Run a validator over each element, stopping at the first error
(the embedding of a Python for-loop of validate calls). -/
def validateEach (f : α → Except String Unit) : List α → Except String Unit
  | [] => .ok ()
  | x :: xs => match f x with
    | .error e => .error e
    | .ok () => validateEach f xs

/-- Embedding of Layer.validate (model.py lines 114-123). -/
def Layer.validateE (l : Layer) : Except String Unit :=
  if l.size ≤ 0 then .error "Layer size must be positive"
  else match l.synapses.validateE with
    | .error e => .error e
    | .ok () =>
      if l.synapses.rows ≠ l.size then
        .error "synapses rows must equal Layer size"
      else match validateEach (fun r => r.validateE l.size) l.ranges with
        | .error e => .error e
        | .ok () => validateEach (fun n => n.validateE l.size) l.neurons

/-- The conditions under which Layer.validate passes. -/
def layerOK (l : Layer) : Prop :=
  0 < l.size ∧ synapsesOK l.synapses ∧ l.synapses.rows = l.size ∧
  (∀ r ∈ l.ranges, 0 ≤ r.start ∧ r.start ≤ r.endIdx ∧ r.endIdx < l.size) ∧
  (∀ n ∈ l.neurons, 0 ≤ n.index ∧ n.index < l.size)

instance (l : Layer) : Decidable (layerOK l) := by
  unfold layerOK; infer_instance

/-- Overwrite entries at the index set of Python range(s, e + 1) with
value `some x`: the embedding of the per-field range loops in
materialize_precedence (model.py lines 150-159). -/
def setRange (v : List (Option α)) (s e : ℕ) (x : α) : List (Option α) :=
  (List.range' s (e + 1 - s)).foldl (fun acc i => acc.set i (some x)) v

/-- One field of materialize_precedence (model.py lines 132-169): seed
with the default, apply ranges in declaration order, then single-neuron
overrides in declaration order.  Range triples are (start, end, value),
neuron pairs are (index, value); indices are ℕ here because the caller
(materialize_precedence) converts the validated ℤ indices. -/
def materializeField (size : ℕ) (dflt : Option α)
    (rs : List (ℕ × ℕ × Option α)) (ns : List (ℕ × Option α)) :
    List (Option α) :=
  let v0 := List.replicate size dflt
  let v1 := rs.foldl (fun v r =>
    match r.2.2 with
    | none => v
    | some x => setRange v r.1 r.2.1 x) v0
  ns.foldl (fun v n =>
    match n.2 with
    | none => v
    | some x => v.set n.1 (some x)) v1

/-- Result record of materialize_precedence: three parallel vectors. -/
structure Materialized where
  VTh : List (Option ℚ)
  RLeak : List (Option ℚ)
  refractory : List (Option ℤ)
deriving Repr, DecidableEq

/-- Embedding of model.materialize_precedence.  Python list indices are
non-negative after validation; `Int.toNat` renders that conversion (and
`List.replicate size.toNat` agrees with Python list multiplication, which
yields an empty list for non-positive sizes). -/
def materialize_precedence (size : ℤ) (d : BIUNetworkDefaults)
    (ranges : List NeuronOverrideRange) (neurons : List NeuronOverride) :
    Materialized where
  VTh := materializeField size.toNat d.VTh
    (ranges.map fun r => (r.start.toNat, r.endIdx.toNat, r.VTh))
    (neurons.map fun n => (n.index.toNat, n.VTh))
  RLeak := materializeField size.toNat d.RLeak
    (ranges.map fun r => (r.start.toNat, r.endIdx.toNat, r.RLeak))
    (neurons.map fun n => (n.index.toNat, n.RLeak))
  refractory := materializeField size.toNat d.refractory
    (ranges.map fun r => (r.start.toNat, r.endIdx.toNat, r.refractory))
    (neurons.map fun n => (n.index.toNat, n.refractory))

/-- Modelled from the claim wording (specification side): the value of
the last single-neuron override in declaration order whose index is `i`
and which sets the field, if any. -/
def lastNeuronSet : List (ℤ × Option α) → ℤ → Option α
  | [], _ => none
  | (j, v) :: rest, i =>
    match lastNeuronSet rest i with
    | some x => some x
    | none => if j = i then v else none

/-- Modelled from the claim wording (specification side): the value of
the last declared range covering index `i` that sets the field, if any. -/
def lastRangeSet : List (ℤ × ℤ × Option α) → ℤ → Option α
  | [], _ => none
  | (s, e, v) :: rest, i =>
    match lastRangeSet rest i with
    | some x => some x
    | none => if s ≤ i ∧ i ≤ e then v else none

/-- Modelled from the claim wording (specification side): resolved value
at an index, with precedence neuron > range > global default. -/
def resolveAt (dflt : Option α) (rs : List (ℤ × ℤ × Option α))
    (ns : List (ℤ × Option α)) (i : ℤ) : Option α :=
  match lastNeuronSet ns i with
  | some x => some x
  | none =>
    match lastRangeSet rs i with
    | some x => some x
    | none => dflt

/-- Strip every trailing occurrence of a character, the model of Python
str.rstrip with a single-character argument. -/
def rstripChar (c : Char) (s : String) : String :=
  ((s.toList.reverse.dropWhile (fun x => x = c)).reverse).asString

/-- The weight-token trimming from compiler.py line 104:
str(v).rstrip("0").rstrip(".") applied to a float representation. -/
def trimFloatRepr (s : String) : String :=
  rstripChar '.' (rstripChar '0' s)

/-- Emission of one float weight (compiler.py line 104).  The Python
float repr itself is floating point and is not modelled numerically; the
trimming behaviour is analysed separately at string level (sciVal,
trimFloatRepr). -/
def formatWeight (w : ℚ) : String :=
  trimFloatRepr (toString w)

/-- Space-separated text of one weight row (compiler.py line 104). -/
def rowText (row : List ℚ) : String :=
  String.intercalate " " (row.map formatWeight)

/-- Child emitted by `_append_text` for a set optional ℚ field, nothing
for an unset one (the `if field is not None` pattern of compile_to_xml). -/
def optChildQ (tag : String) (v : Option ℚ) : List Xml :=
  match v with
  | none => []
  | some x => [Xml.elem tag [] [Xml.text (toString x)]]

/-- Child emitted for a set optional ℤ field, nothing for an unset one. -/
def optChildZ (tag : String) (v : Option ℤ) : List Xml :=
  match v with
  | none => []
  | some x => [Xml.elem tag [] [Xml.text (toString x)]]

/-- DSClockMHz emission with its inline re-check (compiler.py 78-81). -/
def dsClockChildren (o : Option ℚ) : Except String (List Xml) :=
  match o with
  | none => .ok []
  | some c =>
    if c ≤ 0 then .error "DSClockMHz must be positive"
    else .ok [Xml.elem "DSClockMHz" [] [Xml.text (toString c)]]

/-- DSBitWidth emission with its inline re-check (compiler.py 82-85). -/
def dsBitWidthChildren (o : Option ℤ) : Except String (List Xml) :=
  match o with
  | none => .ok []
  | some b =>
    if b ≠ 4 ∧ b ≠ 8 then .error "DSBitWidth must be 4 or 8"
    else .ok [Xml.elem "DSBitWidth" [] [Xml.text (toString b)]]

/-- DSMode emission (compiler.py 86-92): missing or empty becomes
ThresholdMode, any other value must be one of the two modes. -/
def dsModeChild (o : Option String) : Except String Xml :=
  match o with
  | none => .ok (Xml.elem "DSMode" [] [Xml.text "ThresholdMode"])
  | some m =>
    if m = "" then .ok (Xml.elem "DSMode" [] [Xml.text "ThresholdMode"])
    else if m ≠ "ThresholdMode" ∧ m ≠ "FrequencyMode" then
      .error "DSMode must be ThresholdMode or FrequencyMode"
    else .ok (Xml.elem "DSMode" [] [Xml.text m])

/-- Children of the BIUNetwork defaults element, in the emission order of
compile_to_xml lines 63-92. -/
def defaultsChildren (d : BIUNetworkDefaults) : Except String (List Xml) := do
  let ck ← dsClockChildren d.DSClockMHz
  let bw ← dsBitWidthChildren d.DSBitWidth
  let dm ← dsModeChild d.DSMode
  .ok (optChildQ "VTh" d.VTh ++ optChildQ "RLeak" d.RLeak ++
    optChildZ "refractory" d.refractory ++ optChildQ "VDD" d.VDD ++
    optChildQ "Cn" d.Cn ++ optChildQ "Cu" d.Cu ++ optChildQ "fclk" d.fclk ++
    ck ++ bw ++ [dm])

/-- Synapses block (compiler.py 98-105), including the empty-weights
check of lines 101-102. -/
def synapsesElem (s : Synapses) : Except String Xml :=
  if s.weights.length = 0 then
    .error "Missing required weights rows under synapses"
  else
    .ok (Xml.elem "synapses"
      [("rows", toString s.rows), ("cols", toString s.cols)]
      [Xml.elem "weights" []
        (s.weights.map fun row => Xml.elem "row" [] [Xml.text (rowText row)])])

/-- Total variant of synapsesElem; agrees with it on non-empty weights. -/
def synapsesElemT (s : Synapses) : Xml :=
  Xml.elem "synapses"
    [("rows", toString s.rows), ("cols", toString s.cols)]
    [Xml.elem "weights" []
      (s.weights.map fun row => Xml.elem "row" [] [Xml.text (rowText row)])]

/-- Range-override block (compiler.py 111-118): start/end attributes,
only set fields as children. -/
def rangeElem (r : NeuronOverrideRange) : Xml :=
  Xml.elem "NeuronRange"
    [("start", toString r.start), ("end", toString r.endIdx)]
    (optChildQ "VTh" r.VTh ++ optChildQ "RLeak" r.RLeak ++
      optChildZ "refractory" r.refractory)

/-- Single-neuron override block (compiler.py 121-128). -/
def neuronElem (n : NeuronOverride) : Xml :=
  Xml.elem "Neuron" [("index", toString n.index)]
    (optChildQ "VTh" n.VTh ++ optChildQ "RLeak" n.RLeak ++
      optChildZ "refractory" n.refractory)

/-- One Layer element (compiler.py 96-128): the synapse block first,
then all ranges in declaration order, then all single-neuron overrides.
The materialize_precedence call at line 108 computes vectors that the
emission never uses and is therefore effect-free. -/
def layerElem (l : Layer) : Except String Xml := do
  let syn ← synapsesElem l.synapses
  .ok (Xml.elem "Layer" [("size", toString l.size)]
    (syn :: (l.ranges.map rangeElem ++ l.neurons.map neuronElem)))

/-- Total variant of layerElem; agrees with it on valid layers. -/
def layerElemT (l : Layer) : Xml :=
  Xml.elem "Layer" [("size", toString l.size)]
    (synapsesElemT l.synapses ::
      (l.ranges.map rangeElem ++ l.neurons.map neuronElem))

/-- The hard-coded supervisor defaults (compiler.py 17-23) and the
supervisor document built from them (compiler.py 134-149). -/
def supervisorXml : Xml :=
  Xml.elem "NetworkConfig" [("type", "BIUNetwork")]
    [Xml.elem "BIUNetwork" []
      (optChildQ "fclk" (some 10000000) ++
        optChildQ "RLeak" (some 1000000) ++
        optChildQ "VDD" (some (12 / 10)) ++
        optChildQ "Cn" (some (1 / 10 ^ 12)) ++
        optChildQ "Cu" (some (4 / 10 ^ 15)))]

/-- Embedding of compiler.compile_to_xml: validate everything, then emit
the BIU document and, when requested, the supervisor document. -/
def compile_to_xml (d : BIUNetworkDefaults) (layers : List Layer)
    (includeSupervisor : Bool) : Except String (Xml × Option Xml) := do
  d.validateE
  validateEach Layer.validateE layers
  let dc ← defaultsChildren d
  let ls ← layers.mapM layerElem
  .ok (Xml.elem "NetworkConfig" [("type", "BIUNetwork")]
    [Xml.elem "BIUNetwork" [] dc, Xml.elem "Architecture" [] ls],
    if includeSupervisor then some supervisorXml else none)

/-- Embedding of compiler.ProbeMetadata. -/
structure ProbeMetadata where
  name : String
  layerIndex : ℕ
  layerSize : ℤ
deriving Repr, DecidableEq

/-- Model of Python str.strip(): remove leading and trailing
whitespace.  (Implemented over the character list so that it evaluates
by kernel reduction; Lean's own String.trim is equivalent on the ASCII
whitespace these files contain.) -/
def pyStrip (s : String) : String :=
  (((s.toList.dropWhile Char.isWhitespace).reverse.dropWhile
      Char.isWhitespace).reverse).asString

/-- Worker loop of _collect_probe_metadata (compiler.py 190-213):
strip the name, reject empty or duplicate names, record mapping and
metadata in layer order. -/
def collectProbes : List Layer → ℕ → List (String × ℕ) → List ProbeMetadata →
    Except String (List (String × ℕ) × List ProbeMetadata)
  | [], _, acc, metas => .ok (acc, metas)
  | l :: rest, idx, acc, metas =>
    match l.probe with
    | none => collectProbes rest (idx + 1) acc metas
    | some p =>
      let name := pyStrip p
      if name = "" then
        .error "Probe name must be a non-empty string"
      else if acc.any (fun q => q.1 = name) then
        .error "Duplicate probe name"
      else
        collectProbes rest (idx + 1) (acc ++ [(name, idx)])
          (metas ++ [⟨name, idx, l.size⟩])

/-- Embedding of compiler._collect_probe_metadata. -/
def collect_probe_metadata (layers : List Layer) :
    Except String (List (String × ℕ) × List ProbeMetadata) :=
  collectProbes layers 0 [] []

/-- The conditions under which _collect_probe_metadata passes: every
declared probe name is non-empty after trimming and the trimmed names
are pairwise distinct. -/
def probesOK (layers : List Layer) : Prop :=
  (∀ p ∈ layers.filterMap Layer.probe, pyStrip p ≠ "") ∧
    ((layers.filterMap Layer.probe).map pyStrip).Nodup

instance (layers : List Layer) : Decidable (probesOK layers) := by
  unfold probesOK; infer_instance

/-- Embedding of the config.json dict built by build_run_config
(compiler.py 686-716).  Paths are segment lists; the source resolves
every path to an absolute one, which the model represents by keeping
the already-rooted segment list unchanged. -/
structure RunConfig where
  output_directory : List String
  xml_config_path : List String
  data_input_file : List String
  sup_xml_config_path : Option (List String)
  synapses_energy_table_path : Option (List String)
  neuron_energy_table_path : Option (List String)
deriving Repr, DecidableEq

/-- Embedding of compiler.build_run_config: required fields always
present, optional fields only when provided. -/
def build_run_config (outputDirectory xmlConfigPath dataInputFile : List String)
    (supXmlConfigPath synEnergy neuEnergy : Option (List String)) : RunConfig where
  output_directory := outputDirectory
  xml_config_path := xmlConfigPath
  data_input_file := dataInputFile
  sup_xml_config_path := supXmlConfigPath
  synapses_energy_table_path := synEnergy
  neuron_energy_table_path := neuEnergy

/-- One stimulus sample (write_input_data, compiler.py 722-739): a
scalar becomes one value on a line, a vector one space-separated line. -/
inductive InputSample where
  | scalar (q : ℚ)
  | multi (qs : List ℚ)
deriving Repr, DecidableEq

/-- Line written for one input sample. -/
def sampleLine : InputSample → String
  | .scalar q => toString q
  | .multi qs => String.intercalate " " (qs.map toString)

/-- Contents written by the compile step. -/
inductive FileContent where
  | xmlDoc (x : Xml)
  | inputData (lines : List String)
  | configJson (c : RunConfig)
  | probesJson (ps : List ProbeMetadata)
deriving Repr

/-- A filesystem effect of compile: directory creation or file write. -/
inductive FSEvent where
  | mkdirp (p : List String)
  | write (p : List String) (c : FileContent)
deriving Repr

/-- Result of compile: XML values when out_dir is absent, a compiled
model record when artifacts were written. -/
inductive CompileResult where
  | xmlStrings (biu : Xml) (sup : Option Xml)
  | model (configPath : List String) (probeToLayer : List (String × ℕ))
      (probeMetadata : List ProbeMetadata)
deriving Repr

/-- Tail of compile once the input path is known (compiler.py 272-297):
write config.json and, when probes exist, probes.json. -/
def finishCompile (out inputPath : List String) (evs : List FSEvent)
    (p2l : List (String × ℕ)) (metas : List ProbeMetadata)
    (sup : Option Xml) (synEnergy neuEnergy : Option (List String)) :
    List FSEvent × Except String CompileResult :=
  let cfg := build_run_config (out ++ ["output"]) (out ++ ["biu.xml"]) inputPath
    (sup.map fun _ => out ++ ["supervisor.xml"]) synEnergy neuEnergy
  let evs2 := evs ++ [FSEvent.write (out ++ ["config.json"]) (.configJson cfg)]
  let evs3 := evs2 ++
    (if metas ≠ [] then
      [FSEvent.write (out ++ ["probes.json"]) (.probesJson metas)]
    else [])
  (evs3, .ok (.model (out ++ ["config.json"]) p2l metas))

/-- Embedding of compiler.compile (lines 216-297) with its filesystem
effects recorded as an event trace: events already performed when an
error is raised stay in the trace, exactly as files already written stay
on disk when the Python function raises. -/
def compileModel (d : BIUNetworkDefaults) (layers : List Layer)
    (includeSupervisor : Bool) (outDir : Option (List String))
    (dataInputFile : Option (List String))
    (inputData : Option (List InputSample))
    (synEnergy neuEnergy : Option (List String)) :
    List FSEvent × Except String CompileResult :=
  if inputData.isSome ∧ outDir.isNone then
    ([], .error "input_data requires out_dir to be provided")
  else if inputData.isSome ∧ dataInputFile.isSome then
    ([], .error "Provide either data_input_file or input_data, not both")
  else
    match collect_probe_metadata layers with
    | .error e => ([], .error e)
    | .ok (p2l, metas) =>
      match compile_to_xml d layers includeSupervisor with
      | .error e => ([], .error e)
      | .ok (biu, sup) =>
        match outDir with
        | none => ([], .ok (.xmlStrings biu sup))
        | some out =>
          let ev1 : List FSEvent :=
            [.mkdirp out, .write (out ++ ["biu.xml"]) (.xmlDoc biu)]
          let ev2 := ev1 ++
            (match sup with
             | some sx => [FSEvent.write (out ++ ["supervisor.xml"]) (.xmlDoc sx)]
             | none => [])
          match inputData with
          | some dat =>
            let ip := out ++ ["input.txt"]
            finishCompile out ip
              (ev2 ++ [FSEvent.write ip (.inputData (dat.map sampleLine))])
              p2l metas sup synEnergy neuEnergy
          | none =>
            match dataInputFile with
            | some ip => finishCompile out ip ev2 p2l metas sup synEnergy neuEnergy
            | none =>
              (ev2, .error "data_input_file must be provided when out_dir is specified (or supply input_data)")

/-- Numeric value of a digit list read in base 10. -/
def digitsVal (cs : List Char) : ℕ :=
  cs.foldl (fun a c => a * 10 + (c.toNat - 48)) 0

/-- Split a character list at the first exponent marker. -/
def splitAtE : List Char → List Char × Option (List Char)
  | [] => ([], none)
  | c :: cs =>
    if c = 'e' ∨ c = 'E' then ([], some cs)
    else
      let r := splitAtE cs
      (c :: r.1, r.2)

/-- Consume an optional leading sign; true means negative. -/
def parseSign : List Char → Bool × List Char
  | '-' :: cs => (true, cs)
  | '+' :: cs => (false, cs)
  | cs => (false, cs)

/-- Split a character list at the first decimal point. -/
def splitAtDot : List Char → List Char × Option (List Char)
  | [] => ([], none)
  | c :: cs =>
    if c = '.' then ([], some cs)
    else
      let r := splitAtDot cs
      (c :: r.1, r.2)

/-- Exact rational value of a decimal mantissa such as -12.5 or 7. -/
def parseMant (cs : List Char) : Option ℚ :=
  let s1 := parseSign cs
  let s2 := splitAtDot s1.2
  let ip := s2.1
  let fp := s2.2.getD []
  if ip ++ fp = [] then none
  else if ¬ (ip.all Char.isDigit ∧ fp.all Char.isDigit) then none
  else
    let v : ℚ := (digitsVal ip : ℚ) + (digitsVal fp : ℚ) / (10 : ℚ) ^ fp.length
    some (if s1.1 then -v else v)

/-- Exponent of a scientific-notation token. -/
def parseExp (cs : List Char) : Option ℤ :=
  let s1 := parseSign cs
  if s1.2 = [] ∨ ¬ (s1.2.all Char.isDigit) then none
  else some (if s1.1 then -(digitsVal s1.2 : ℤ) else (digitsVal s1.2 : ℤ))

/-- Exact rational value denoted by a decimal or scientific-notation
numeric token, the reference semantics for parsing an emitted weight
token back as a number. -/
def sciVal (s : String) : Option ℚ :=
  let sp := splitAtE s.toList
  match parseMant sp.1 with
  | none => none
  | some mv =>
    match sp.2 with
    | none => some mv
    | some ecs =>
      match parseExp ecs with
      | none => none
      | some ex => some (mv * (10 : ℚ) ^ ex)

/-- A pathlib-style path: absolute flag plus name segments. -/
structure PyPath where
  isAbs : Bool
  parts : List String
deriving Repr, DecidableEq

/-- pathlib join semantics: an absolute right operand replaces the left
operand entirely. -/
def pathJoin (a b : PyPath) : PyPath :=
  if b.isAbs then b else ⟨a.isAbs, a.parts ++ b.parts⟩

/-- Embedding of compiler.os_path_relativize (lines 754-756): the
function is documented as deprecated and returns its input unchanged. -/
def os_path_relativize (p base : PyPath) : PyPath := p

/-- Remove the longest common leading run of two segment lists. -/
def dropCommon : List String → List String → List String × List String
  | a :: as, b :: bs => if a = b then dropCommon as bs else (a :: as, b :: bs)
  | as, bs => (as, bs)

/-- Modelled from the spec: base-relative path resolution, computing
every path relative to a declared base directory and inserting ".."
segments as needed. -/
def specRelativize (p base : PyPath) : PyPath :=
  let r := dropCommon p.parts base.parts
  ⟨false, List.replicate r.2.length ".." ++ r.1⟩

/-- Kind of a filesystem entry seen by the runner. -/
structure FileKind where
  isFile : Bool
  executable : Bool
deriving Repr, DecidableEq

/-- A finite filesystem: path to entry kind. -/
def fsLookup (fs : List (PyPath × FileKind)) (p : PyPath) : Option FileKind :=
  (fs.find? (fun q => q.1 = p)).map Prod.snd

/-- Parse a path string the way Path(s) does for plain slash paths. -/
def pathFromString (s : String) : PyPath :=
  ⟨s.startsWith "/", (s.splitOn "/").filter (fun x => x ≠ "")⟩

/-- Binary resolution of NemoSimRunner.__init__ (runner.py 50-57):
explicit argument first, then a truthy (non-empty) NEMOSIM_BINARY
environment value, then NEMOSIM under the working directory. -/
def resolveBinary (workingDir : PyPath) (binaryArg : Option PyPath)
    (envBinary : Option String) : PyPath :=
  match binaryArg with
  | some b => b
  | none =>
    match envBinary with
    | some s =>
      if s ≠ "" then pathFromString s
      else ⟨workingDir.isAbs, workingDir.parts ++ ["NEMOSIM"]⟩
    | none => ⟨workingDir.isAbs, workingDir.parts ++ ["NEMOSIM"]⟩

/-- String form of a path. -/
def pathStr (p : PyPath) : String :=
  (if p.isAbs then "/" else "") ++ String.intercalate "/" p.parts

/-- Final name segment of a path. -/
def lastName (p : PyPath) : String :=
  p.parts.getLast?.getD ""

/-- The child-process invocation about to be made: produced only after
every pre-launch check of NemoSimRunner.run has passed. -/
structure LaunchSpec where
  args : List String
  cwd : PyPath
deriving Repr, DecidableEq

/-- Pre-launch phase of NemoSimRunner.run (runner.py 98-122): check the
working directory, then that the binary exists, then that it is a
regular file, and only then build the argument vector for the child
process.  No other property of the binary is checked. -/
def runPre (fs : List (PyPath × FileKind)) (workingDir binary : PyPath)
    (configPath : PyPath) (extra : List String) : Except String LaunchSpec :=
  if (fsLookup fs workingDir).isNone then
    .error "Invalid working directory"
  else
    match fsLookup fs binary with
    | none => .error "Simulator binary not found"
    | some k =>
      if k.isFile = false then .error "Simulator binary is not a file"
      else
        let binArg := if binary.isAbs then pathStr binary else "./" ++ lastName binary
        .ok ⟨[binArg, pathStr configPath] ++ extra, workingDir⟩

/-- Canonical output-signal filename signal_layer_neuron.txt as the
simulator writes it (spec section 6). -/
def canonicalSignalName (signal : String) (layerIdx neuronIdx : ℕ) : String :=
  signal ++ "_" ++ toString layerIdx ++ "_" ++ toString neuronIdx ++ ".txt"

/-- Is the first list a leading segment of the second? -/
def isPre : List Char → List Char → Bool
  | [], _ => true
  | _ :: _, [] => false
  | a :: as, b :: bs => a = b && isPre as bs

/-- Is the first list a trailing segment of the second? -/
def isSuf (pat s : List Char) : Bool :=
  isPre pat.reverse s.reverse

/-- Match against the glob pattern head*.txt used by
_list_neuron_indices; * matches any run of characters (filenames never
contain a path separator). -/
def globMatchTxt (head name : List Char) : Bool :=
  head.length + 4 ≤ name.length && isPre head name &&
    isSuf ('.' :: ['t', 'x', 't']) name

/-- Path.stem: the filename with its last suffix removed; a lone leading
dot is not a suffix. -/
def stemOf (name : List Char) : List Char :=
  let rev := name.reverse
  match rev.findIdx? (fun c => c = '.') with
  | none => name
  | some i =>
    if i = rev.length - 1 then name
    else (rev.drop (i + 1)).reverse

/-- str.split with a one-character separator, as a list operation. -/
def splitOnChar (c : Char) : List Char → List (List Char)
  | [] => [[]]
  | x :: xs =>
    match splitOnChar c xs with
    | [] => [[]]
    | h :: t => if x = c then [] :: h :: t else (x :: h) :: t

/-- Model of int(s) on a filename fragment: optional sign then decimal
digits.  (Python int() additionally tolerates surrounding whitespace and
embedded underscores; immaterial for the canonical filenames the
simulator produces.) -/
def pyIntParse : List Char → Option ℤ
  | [] => none
  | c :: rest =>
    if c = '-' then
      if rest ≠ [] ∧ rest.all Char.isDigit then some (-(digitsVal rest : ℤ))
      else none
    else if c = '+' then
      if rest ≠ [] ∧ rest.all Char.isDigit then some ((digitsVal rest : ℤ))
      else none
    else
      if (c :: rest).all Char.isDigit then some ((digitsVal (c :: rest) : ℤ))
      else none

/-- The per-file step of _list_neuron_indices (compiler.py 567-573):
glob match, take the stem, split on underscores, require exactly three
parts, parse the third as an integer. -/
def parseNeuronFile (head : String) (name : String) : Option ℤ :=
  if globMatchTxt head.toList name.toList then
    let parts := splitOnChar '_' (stemOf name.toList)
    if parts.length = 3 then pyIntParse (parts.getD 2 []) else none
  else none

/-- Decimal digit characters of a natural number, most significant
first: the reference form of Nat.repr used to reason about canonical
filenames. -/
def natChars (n : ℕ) : List Char :=
  if h : n < 10 then [Nat.digitChar n]
  else natChars (n / 10) ++ [Nat.digitChar (n % 10)]
decreasing_by exact Nat.div_lt_self (by omega) (by omega)

/-- sorted(set(l)) for integers. -/
def sortedDedupInt (l : List ℤ) : List ℤ :=
  l.dedup.insertionSort (fun a b => a ≤ b)

/-- Embedding of LayerProbe._list_neuron_indices (compiler.py 560-574):
with metadata, the full range of the declared layer size; without, the
sorted set of indices parsed from matching files in the output
directory (modelled as the list of filenames it contains). -/
def list_neuron_indices (metadata : Option ProbeMetadata) (layerIdx : ℕ)
    (files : List String) (signal : Option String) : List ℤ :=
  match metadata with
  | some m => (List.range m.layerSize.toNat).map (fun n => (n : ℤ))
  | none =>
    let ps := signal.getD "spikes"
    let head := ps ++ "_" ++ toString layerIdx ++ "_"
    sortedDedupInt (files.filterMap (parseNeuronFile head))

/-- Values of a signal file: stripped lines with blanks skipped. -/
def fileValues (lines : List String) : List String :=
  (lines.map pyStrip).filter (fun t => t ≠ "")

/-- Has the max_events cap been reached after y yields? -/
def capReached (cap : Option ℕ) (y : ℕ) : Bool :=
  match cap with
  | none => false
  | some k => k ≤ y

/-- Reading loop of watch_probe within currently available lines
(probe_utils.py 66-76): strip each line, skip blanks, yield values and
stop as soon as the max_events cap is reached.  Returns the yielded
values, the updated yield count, and whether the cap stopped it. -/
def consumeLines (caster : String → α) (cap : Option ℕ) :
    List String → ℕ → List α × ℕ × Bool
  | [], y => ([], y, false)
  | l :: ls, y =>
    let t := pyStrip l
    if t = "" then consumeLines caster cap ls y
    else
      let y' := y + 1
      if capReached cap y' then ([caster t], y', true)
      else
        let r := consumeLines caster cap ls y'
        (caster t :: r.1, r.2.1, r.2.2)

/-- End-of-file behaviour of watch_probe (probe_utils.py 77-82) over a
trace of successive file snapshots: the reader keeps its cursor, and on
reaching the end of the current snapshot either stops (no follow, or cap
reached) or sleeps and re-reads, which the model renders as moving to
the next snapshot.  The Bool is true when the generator terminated and
false when it was still waiting for data at the end of the trace. -/
def watchGo (caster : String → α) (follow : Bool) (cap : Option ℕ)
    (rest : List (List String)) (cur : List String) (c y : ℕ) :
    List α × Bool :=
  let r := consumeLines caster cap (cur.drop c) y
  if r.2.2 then (r.1, true)
  else if follow = false then (r.1, true)
  else if capReached cap r.2.1 then (r.1, true)
  else
    match rest with
    | [] => (r.1, false)
    | nxt :: rest' =>
      let r2 := watchGo caster follow cap rest' nxt cur.length r.2.1
      (r.1 ++ r2.1, r2.2)

/-- Embedding of watch_probe on an existing file (probe_utils.py 62-82):
the snapshots list gives the file contents observed at open time and
after each sleep; a single appending writer only extends them. -/
def watch_probe_run (caster : String → α) (follow : Bool) (cap : Option ℕ)
    (snaps : List (List String)) : List α × Bool :=
  match snaps with
  | [] => ([], false)
  | s0 :: rest => watchGo caster follow cap rest s0 0 0

/-- Natural-index form of lastNeuronSet, used to relate the resolver to
the list computation. -/
def lastNeuronSetN : List (ℕ × Option α) → ℕ → Option α
  | [], _ => none
  | (j, v) :: rest, i =>
    match lastNeuronSetN rest i with
    | some x => some x
    | none => if j = i then v else none

/-- Natural-index form of lastRangeSet. -/
def lastRangeSetN : List (ℕ × ℕ × Option α) → ℕ → Option α
  | [], _ => none
  | (s, e, v) :: rest, i =>
    match lastRangeSetN rest i with
    | some x => some x
    | none => if s ≤ i ∧ i ≤ e then v else none

/-- Natural-index form of resolveAt. -/
def resolveAtN (dflt : Option α) (rs : List (ℕ × ℕ × Option α))
    (ns : List (ℕ × Option α)) (i : ℕ) : Option α :=
  match lastNeuronSetN ns i with
  | some x => some x
  | none =>
    match lastRangeSetN rs i with
    | some x => some x
    | none => dflt

/-- Left-to-right resolution of ".." segments, giving the filesystem
location a joined path denotes. -/
def normParts (parts : List String) : List String :=
  parts.foldl (fun acc seg => if seg = ".." then acc.dropLast else acc ++ [seg]) []

/-- The filesystem location a path denotes once ".." segments are
resolved. -/
def normPath (p : PyPath) : PyPath :=
  ⟨p.isAbs, normParts p.parts⟩

/-- The absolute artifact path of the relativization scenario from the
repository test suite. -/
def c4p : PyPath := ⟨true, ["tmp", "scenario", "biu.xml"]⟩

/-- The simulator working directory of the same scenario. -/
def c4base : PyPath := ⟨true, ["tmp", "bin", "Linux"]⟩

/-- Working directory entry for the runner scenario. -/
def c6wd : PyPath := ⟨true, ["work"]⟩

/-- Binary path for the runner scenario. -/
def c6bin : PyPath := ⟨true, ["work", "NEMOSIM"]⟩

/-- Config path for the runner scenario. -/
def c6cfg : PyPath := ⟨true, ["out", "config.json"]⟩

/-- A filesystem whose binary exists and is a regular file but carries
no execute permission. -/
def c6fsNonExec : List (PyPath × FileKind) :=
  [(c6wd, ⟨false, false⟩), (c6bin, ⟨true, false⟩)]

/-- Append-only growth of a line file: the later content extends the
earlier one. -/
def extendsL (a b : List String) : Prop :=
  ∃ t, b = a ++ t

/-- The spikes caster int() of the probe subsystem, on values the
simulator writes. -/
def spikesCaster (s : String) : ℤ :=
  (pyIntParse s.toList).getD 0

/-- A layer with overlapping ranges and a neuron override, used to
exercise the emission-order theorem. -/
def c3layer : Layer :=
  { size := 3,
    synapses := { rows := 3, cols := 1, weights := [[1], [2], [3]] },
    ranges := [{ start := 0, endIdx := 2, VTh := some 2, RLeak := some 3 },
               { start := 1, endIdx := 1, VTh := some 4 }],
    neurons := [{ index := 1, RLeak := some 7 }],
    probe := some "p" }

/-- The DSMode text that emission writes: ThresholdMode when the mode is
missing or empty, the declared value otherwise. -/
def dsModeText : Option String → String
  | none => "ThresholdMode"
  | some m => if m = "" then "ThresholdMode" else m

/-- Does an XML node carry the given element tag? -/
def tagIs (t : String) (x : Xml) : Bool :=
  decide (x.tagOf = some t)

/-- The defaults children as a total function of valid defaults. -/
def defaultsKids (d : BIUNetworkDefaults) : List Xml :=
  optChildQ "VTh" d.VTh ++ optChildQ "RLeak" d.RLeak ++
    optChildZ "refractory" d.refractory ++ optChildQ "VDD" d.VDD ++
    optChildQ "Cn" d.Cn ++ optChildQ "Cu" d.Cu ++ optChildQ "fclk" d.fclk ++
    optChildQ "DSClockMHz" d.DSClockMHz ++ optChildZ "DSBitWidth" d.DSBitWidth ++
    [Xml.elem "DSMode" [] [Xml.text (dsModeText d.DSMode)]]

/-- Defaults with an empty declared mode and a mix of set and unset
fields, used to exercise the DSMode-emission theorem. -/
def c7defaults : BIUNetworkDefaults :=
  { VTh := some (9 / 10), DSBitWidth := some 8, DSClockMHz := some 50,
    DSMode := some "" }

/-- Invalid defaults (bit width 5) used to exercise claim C2. -/
def c2defaults : BIUNetworkDefaults :=
  { DSBitWidth := some 5 }

/-- A well-formed one-neuron layer. -/
def oneLayer : Layer :=
  { size := 1, synapses := { rows := 1, cols := 1, weights := [[1]] } }

/-- Concrete defaults used to exercise the precedence theorem. -/
def c1defaults : BIUNetworkDefaults :=
  { VTh := some 1, RLeak := none, refractory := some 5 }

/-- Concrete overlapping ranges used to exercise the precedence theorem. -/
def c1ranges : List NeuronOverrideRange :=
  [{ start := 0, endIdx := 2, VTh := some 2, RLeak := some 3 },
   { start := 1, endIdx := 1, VTh := some 4 }]

/-- Concrete single-neuron overrides for the precedence theorem. -/
def c1neurons : List NeuronOverride :=
  [{ index := 1, RLeak := some 7 }]

theorem foldlSet_length (x : α) (js : List ℕ) (v : List (Option α)) :
    (js.foldl (fun a j => a.set j (some x)) v).length = v.length := by
  induction js generalizing v with
  | nil => rfl
  | cons j js ih => simp [ih]

theorem get?_foldlSet (x : α) (js : List ℕ) (v : List (Option α)) (i : ℕ)
    (hi : i < v.length) :
    (js.foldl (fun a j => a.set j (some x)) v).get? i =
      if i ∈ js then some (some x) else v.get? i := by
  induction js generalizing v with
  | nil => simp
  | cons j js ih =>
    rw [List.foldl_cons, ih _ (by simpa using hi)]
    by_cases hij : i ∈ js
    · simp [hij]
    · rw [List.get?_set_of_lt _ _ hi]
      by_cases hji : j = i
      · simp [hij, hji, List.mem_cons]
      · simp [hij, hji, List.mem_cons, Ne.symm hji]

theorem setRange_length (v : List (Option α)) (s e : ℕ) (x : α) :
    (setRange v s e x).length = v.length :=
  foldlSet_length x _ v

theorem get?_setRange (v : List (Option α)) (s e : ℕ) (x : α) (i : ℕ)
    (hi : i < v.length) :
    (setRange v s e x).get? i =
      if s ≤ i ∧ i ≤ e then some (some x) else v.get? i := by
  rw [setRange, get?_foldlSet x _ v i hi]
  refine if_congr ?_ rfl rfl
  rw [List.mem_range'_1]
  omega

theorem rangesFold_length (rs : List (ℕ × ℕ × Option α)) (v : List (Option α)) :
    (rs.foldl (fun v r =>
      match r.2.2 with
      | none => v
      | some x => setRange v r.1 r.2.1 x) v).length = v.length := by
  induction rs generalizing v with
  | nil => rfl
  | cons r rs ih =>
    rw [List.foldl_cons, ih]
    rcases r with ⟨s, e, _ | x⟩
    · rfl
    · exact setRange_length v s e x

theorem get?_rangesFold (rs : List (ℕ × ℕ × Option α)) (v : List (Option α))
    (i : ℕ) (hi : i < v.length) :
    (rs.foldl (fun v r =>
      match r.2.2 with
      | none => v
      | some x => setRange v r.1 r.2.1 x) v).get? i =
      match lastRangeSetN rs i with
      | some x => some (some x)
      | none => v.get? i := by
  induction rs generalizing v with
  | nil => rfl
  | cons r rs ih =>
    rcases r with ⟨s, e, val⟩
    rw [List.foldl_cons]
    have hlen : i < (match (s, e, val).2.2 with
        | none => v
        | some x => setRange v (s, e, val).1 (s, e, val).2.1 x).length := by
      rcases val with _ | x
      · exact hi
      · rw [setRange_length]; exact hi
    rw [ih _ hlen]
    show _ = match lastRangeSetN ((s, e, val) :: rs) i with
      | some x => some (some x)
      | none => v.get? i
    rw [lastRangeSetN]
    rcases hrest : lastRangeSetN rs i with _ | x
    · rcases val with _ | x
      · simp
      · rw [get?_setRange v s e x i hi]
        by_cases hcov : s ≤ i ∧ i ≤ e
        · simp [hcov]
        · simp [hcov]
    · rfl

theorem get?_neuronsFold (ns : List (ℕ × Option α)) (v : List (Option α))
    (i : ℕ) (hi : i < v.length) :
    (ns.foldl (fun v n =>
      match n.2 with
      | none => v
      | some x => v.set n.1 (some x)) v).get? i =
      match lastNeuronSetN ns i with
      | some x => some (some x)
      | none => v.get? i := by
  induction ns generalizing v with
  | nil => rfl
  | cons n ns ih =>
    rcases n with ⟨j, val⟩
    rw [List.foldl_cons]
    have hlen : i < (match (j, val).2 with
        | none => v
        | some x => v.set (j, val).1 (some x)).length := by
      rcases val with _ | x
      · exact hi
      · simpa using hi
    rw [ih _ hlen]
    show _ = match lastNeuronSetN ((j, val) :: ns) i with
      | some x => some (some x)
      | none => v.get? i
    rw [lastNeuronSetN]
    rcases hrest : lastNeuronSetN ns i with _ | x
    · rcases val with _ | x
      · simp
      · rw [List.get?_set_of_lt _ _ hi]
        by_cases hji : j = i
        · simp [hji]
        · simp [hji]
    · rfl

theorem get?_replicate_opt (a : Option α) (n i : ℕ) (hi : i < n) :
    (List.replicate n a).get? i = some a := by
  rw [List.get?_eq_get (by simpa using hi)]
  simp [List.get_replicate]

theorem materializeField_get (size : ℕ) (dflt : Option α)
    (rs : List (ℕ × ℕ × Option α)) (ns : List (ℕ × Option α)) (i : ℕ)
    (hi : i < size) :
    (materializeField size dflt rs ns).get? i = some (resolveAtN dflt rs ns i) := by
  rw [materializeField]
  have h1 : i < (List.replicate size dflt).length := by simpa using hi
  have h2 : i < ((rs.foldl (fun v r =>
      match r.2.2 with
      | none => v
      | some x => setRange v r.1 r.2.1 x) (List.replicate size dflt))).length := by
    rw [rangesFold_length]; exact h1
  rw [get?_neuronsFold _ _ _ h2, resolveAtN]
  rcases lastNeuronSetN ns i with _ | x
  · rw [get?_rangesFold _ _ _ h1]
    rcases lastRangeSetN rs i with _ | x
    · exact get?_replicate_opt dflt size i hi
    · rfl
  · rfl

theorem lastNeuronSet_toNat (ns : List (ℤ × Option α)) (i : ℕ)
    (h : ∀ p ∈ ns, 0 ≤ p.1) :
    lastNeuronSet ns (i : ℤ) =
      lastNeuronSetN (ns.map fun p => (p.1.toNat, p.2)) i := by
  induction ns with
  | nil => rfl
  | cons p ns ih =>
    rcases p with ⟨j, v⟩
    have hj : 0 ≤ j := h (j, v) (by simp)
    rw [List.map_cons, lastNeuronSet, lastNeuronSetN,
      ih (fun q hq => h q (by simp [hq]))]
    dsimp only
    rcases hL : lastNeuronSetN (ns.map fun p => (p.1.toNat, p.2)) i with _ | x
    · rw [hL]; exact if_congr (by omega) rfl rfl
    · rw [hL]

theorem lastRangeSet_toNat (rs : List (ℤ × ℤ × Option α)) (i : ℕ)
    (h : ∀ p ∈ rs, 0 ≤ p.1 ∧ 0 ≤ p.2.1) :
    lastRangeSet rs (i : ℤ) =
      lastRangeSetN (rs.map fun p => (p.1.toNat, p.2.1.toNat, p.2.2)) i := by
  induction rs with
  | nil => rfl
  | cons p rs ih =>
    rcases p with ⟨s, e, v⟩
    have hs : 0 ≤ s ∧ 0 ≤ e := h (s, e, v) (by simp)
    rw [List.map_cons, lastRangeSet, lastRangeSetN,
      ih (fun q hq => h q (by simp [hq]))]
    dsimp only
    rcases hL : lastRangeSetN (rs.map fun p => (p.1.toNat, p.2.1.toNat, p.2.2)) i with _ | x
    · rw [hL]; exact if_congr (by omega) rfl rfl
    · rw [hL]

theorem resolveAt_toNat (dflt : Option α) (rs : List (ℤ × ℤ × Option α))
    (ns : List (ℤ × Option α)) (i : ℕ)
    (hr : ∀ p ∈ rs, 0 ≤ p.1 ∧ 0 ≤ p.2.1) (hn : ∀ p ∈ ns, 0 ≤ p.1) :
    resolveAt dflt rs ns (i : ℤ) =
      resolveAtN dflt (rs.map fun p => (p.1.toNat, p.2.1.toNat, p.2.2))
        (ns.map fun p => (p.1.toNat, p.2)) i := by
  rw [resolveAt, resolveAtN, lastNeuronSet_toNat ns i hn, lastRangeSet_toNat rs i hr]

theorem materialize_resolve_field (size : ℕ) (dflt : Option α)
    (rsZ : List (ℤ × ℤ × Option α)) (nsZ : List (ℤ × Option α))
    (hr : ∀ p ∈ rsZ, 0 ≤ p.1 ∧ p.1 ≤ p.2.1)
    (hn : ∀ p ∈ nsZ, 0 ≤ p.1)
    (i : ℕ) (hi : i < size) :
    (materializeField size dflt
      (rsZ.map fun p => (p.1.toNat, p.2.1.toNat, p.2.2))
      (nsZ.map fun p => (p.1.toNat, p.2))).get? i =
      some (resolveAt dflt rsZ nsZ (i : ℤ)) := by
  rw [materializeField_get _ _ _ _ i hi,
    resolveAt_toNat dflt rsZ nsZ i
      (fun p hp => ⟨(hr p hp).1, le_trans (hr p hp).1 (hr p hp).2⟩)
      (fun p hp => hn p hp)]

/-- Claim C1: for every layer size, defaults, ordered range overrides and
ordered single-neuron overrides with valid bounds, materialize_precedence
resolves each of VTh, RLeak and refractory independently at each index i
to the last declared single-neuron override setting that field at i, else
the last declared covering range setting that field, else the global
default (possibly unset). -/
theorem claim_c1_precedence (size : ℕ) (d : BIUNetworkDefaults)
    (ranges : List NeuronOverrideRange) (neurons : List NeuronOverride)
    (hr : ∀ r ∈ ranges, 0 ≤ r.start ∧ r.start ≤ r.endIdx ∧ r.endIdx < (size : ℤ))
    (hn : ∀ n ∈ neurons, 0 ≤ n.index ∧ n.index < (size : ℤ))
    (i : ℕ) (hi : i < size) :
    (materialize_precedence (size : ℤ) d ranges neurons).VTh.get? i =
      some (resolveAt d.VTh (ranges.map fun r => (r.start, r.endIdx, r.VTh))
        (neurons.map fun n => (n.index, n.VTh)) (i : ℤ)) ∧
    (materialize_precedence (size : ℤ) d ranges neurons).RLeak.get? i =
      some (resolveAt d.RLeak (ranges.map fun r => (r.start, r.endIdx, r.RLeak))
        (neurons.map fun n => (n.index, n.RLeak)) (i : ℤ)) ∧
    (materialize_precedence (size : ℤ) d ranges neurons).refractory.get? i =
      some (resolveAt d.refractory
        (ranges.map fun r => (r.start, r.endIdx, r.refractory))
        (neurons.map fun n => (n.index, n.refractory)) (i : ℤ)) := by
  have hrQ : ∀ (f : NeuronOverrideRange → Option ℚ),
      ∀ p ∈ ranges.map fun r => (r.start, r.endIdx, f r), 0 ≤ p.1 ∧ p.1 ≤ p.2.1 := by
    intro f p hp
    rcases List.mem_map.mp hp with ⟨r, hrm, rfl⟩
    exact ⟨(hr r hrm).1, (hr r hrm).2.1⟩
  have hrZ : ∀ (f : NeuronOverrideRange → Option ℤ),
      ∀ p ∈ ranges.map fun r => (r.start, r.endIdx, f r), 0 ≤ p.1 ∧ p.1 ≤ p.2.1 := by
    intro f p hp
    rcases List.mem_map.mp hp with ⟨r, hrm, rfl⟩
    exact ⟨(hr r hrm).1, (hr r hrm).2.1⟩
  have hnQ : ∀ (f : NeuronOverride → Option ℚ),
      ∀ p ∈ neurons.map fun n => (n.index, f n), 0 ≤ p.1 := by
    intro f p hp
    rcases List.mem_map.mp hp with ⟨n, hnm, rfl⟩
    exact (hn n hnm).1
  have hnZ : ∀ (f : NeuronOverride → Option ℤ),
      ∀ p ∈ neurons.map fun n => (n.index, f n), 0 ≤ p.1 := by
    intro f p hp
    rcases List.mem_map.mp hp with ⟨n, hnm, rfl⟩
    exact (hn n hnm).1
  refine ⟨?_, ?_, ?_⟩
  · have := materialize_resolve_field size d.VTh
      (ranges.map fun r => (r.start, r.endIdx, r.VTh))
      (neurons.map fun n => (n.index, n.VTh)) (hrQ _) (hnQ _) i hi
    rw [List.map_map, List.map_map] at this
    show (materializeField ((size : ℤ)).toNat d.VTh
      (ranges.map fun r => (r.start.toNat, r.endIdx.toNat, r.VTh))
      (neurons.map fun n => (n.index.toNat, n.VTh))).get? i = _
    rw [Int.toNat_natCast]
    exact this
  · have := materialize_resolve_field size d.RLeak
      (ranges.map fun r => (r.start, r.endIdx, r.RLeak))
      (neurons.map fun n => (n.index, n.RLeak)) (hrQ _) (hnQ _) i hi
    rw [List.map_map, List.map_map] at this
    show (materializeField ((size : ℤ)).toNat d.RLeak
      (ranges.map fun r => (r.start.toNat, r.endIdx.toNat, r.RLeak))
      (neurons.map fun n => (n.index.toNat, n.RLeak))).get? i = _
    rw [Int.toNat_natCast]
    exact this
  · have := materialize_resolve_field size d.refractory
      (ranges.map fun r => (r.start, r.endIdx, r.refractory))
      (neurons.map fun n => (n.index, n.refractory)) (hrZ _) (hnZ _) i hi
    rw [List.map_map, List.map_map] at this
    show (materializeField ((size : ℤ)).toNat d.refractory
      (ranges.map fun r => (r.start.toNat, r.endIdx.toNat, r.refractory))
      (neurons.map fun n => (n.index.toNat, n.refractory))).get? i = _
    rw [Int.toNat_natCast]
    exact this

/-- Witness for claim C1 at a concrete configuration with overlapping
ranges and a single-neuron override. -/
theorem claim_c1_precedence_witness :
    (∀ r ∈ c1ranges, 0 ≤ r.start ∧ r.start ≤ r.endIdx ∧ r.endIdx < (3 : ℤ)) ∧
    (∀ n ∈ c1neurons, 0 ≤ n.index ∧ n.index < (3 : ℤ)) ∧ 1 < 3 ∧
    ((materialize_precedence (3 : ℤ) c1defaults c1ranges c1neurons).VTh.get? 1 =
      some (resolveAt c1defaults.VTh
        (c1ranges.map fun r => (r.start, r.endIdx, r.VTh))
        (c1neurons.map fun n => (n.index, n.VTh)) (1 : ℤ)) ∧
    (materialize_precedence (3 : ℤ) c1defaults c1ranges c1neurons).RLeak.get? 1 =
      some (resolveAt c1defaults.RLeak
        (c1ranges.map fun r => (r.start, r.endIdx, r.RLeak))
        (c1neurons.map fun n => (n.index, n.RLeak)) (1 : ℤ)) ∧
    (materialize_precedence (3 : ℤ) c1defaults c1ranges c1neurons).refractory.get? 1 =
      some (resolveAt c1defaults.refractory
        (c1ranges.map fun r => (r.start, r.endIdx, r.refractory))
        (c1neurons.map fun n => (n.index, n.refractory)) (1 : ℤ))) :=
  ⟨by decide, by decide, by decide,
    claim_c1_precedence 3 c1defaults c1ranges c1neurons
      (by decide) (by decide) 1 (by decide)⟩

theorem posIfSet_any (o : Option ℚ) :
    posIfSet o ↔ (o.any fun c => decide (c ≤ 0)) = false := by
  cases o with
  | none => simp [posIfSet]
  | some c => simp [posIfSet, not_le]

theorem defaults_validateE_ok (d : BIUNetworkDefaults) :
    d.validateE = .ok () ↔ defaultsOK d := by
  rw [BIUNetworkDefaults.validateE]
  split_ifs with h1 h2 h3
  · simp only [reduceCtorEq, false_iff]
    intro hOK
    rcases h1 with ⟨n1, n4, n8⟩
    rcases hOK.1 with hb | hb | hb
    · exact n1 hb
    · exact n4 hb
    · exact n8 hb
  · simp only [reduceCtorEq, false_iff]
    intro hOK
    obtain ⟨hb, hc, hm⟩ := hOK
    rw [posIfSet_any] at hc
    rw [hc] at h2
    exact Bool.false_ne_true h2
  · simp only [reduceCtorEq, false_iff]
    intro hOK
    rcases h3 with ⟨m1, m2, m3, m4⟩
    rcases hOK.2.2 with hm | hm | hm | hm
    · exact m1 hm
    · exact m2 hm
    · exact m3 hm
    · exact m4 hm
  · simp only [true_iff]
    refine ⟨?_, ?_, ?_⟩
    · by_cases hn : d.DSBitWidth = none
      · exact Or.inl hn
      · by_cases h4 : d.DSBitWidth = some 4
        · exact Or.inr (Or.inl h4)
        · by_cases h8 : d.DSBitWidth = some 8
          · exact Or.inr (Or.inr h8)
          · exact absurd ⟨hn, h4, h8⟩ h1
    · rw [posIfSet_any]
      exact Bool.not_eq_true _ |>.mp h2
    · by_cases hn : d.DSMode = none
      · exact Or.inl hn
      · by_cases ht : d.DSMode = some "ThresholdMode"
        · exact Or.inr (Or.inl ht)
        · by_cases hf : d.DSMode = some "FrequencyMode"
          · exact Or.inr (Or.inr (Or.inl hf))
          · by_cases he : d.DSMode = some ""
            · exact Or.inr (Or.inr (Or.inr he))
            · exact absurd ⟨hn, ht, hf, he⟩ h3

theorem synapses_validateE_ok (s : Synapses) :
    s.validateE = .ok () ↔ synapsesOK s := by
  rw [Synapses.validateE]
  split_ifs with h1 h2 h3
  · simp only [reduceCtorEq, false_iff]
    intro hOK
    rcases h1 with h | h
    · exact absurd hOK.1 (not_lt.mpr h)
    · exact absurd hOK.2.1 (not_lt.mpr h)
  · simp only [reduceCtorEq, false_iff]
    intro hOK
    exact h2 hOK.2.2.1
  · simp only [reduceCtorEq, false_iff]
    intro hOK
    rcases h3 with ⟨row, hrow, hne⟩
    exact hne (hOK.2.2.2 row hrow)
  · simp only [true_iff]
    push_neg at h1 h2 h3
    exact ⟨h1.1, h1.2, h2, h3⟩

theorem range_validateE_ok (r : NeuronOverrideRange) (size : ℤ) :
    r.validateE size = .ok () ↔
      (0 ≤ r.start ∧ r.start ≤ r.endIdx ∧ r.endIdx < size) := by
  rw [NeuronOverrideRange.validateE]
  split_ifs with h1 h2
  · simp only [reduceCtorEq, false_iff]; omega
  · simp only [reduceCtorEq, false_iff]; omega
  · simp only [true_iff]; omega

theorem neuron_validateE_ok (n : NeuronOverride) (size : ℤ) :
    n.validateE size = .ok () ↔ (0 ≤ n.index ∧ n.index < size) := by
  rw [NeuronOverride.validateE]
  split_ifs with h1
  · simp only [reduceCtorEq, false_iff]; omega
  · simp only [true_iff]; omega

theorem validateEach_ok (f : α → Except String Unit) (xs : List α) :
    validateEach f xs = .ok () ↔ ∀ x ∈ xs, f x = .ok () := by
  induction xs with
  | nil => simp [validateEach]
  | cons x xs ih =>
    rw [validateEach]
    rcases hx : f x with e | u
    · simp only [reduceCtorEq, false_iff]
      intro hall
      rw [hall x (by simp)] at hx
      exact absurd hx (by simp)
    · cases u
      rw [ih]
      constructor
      · intro hall y hy
        rcases List.mem_cons.mp hy with rfl | hy
        · exact hx
        · exact hall y hy
      · intro hall y hy
        exact hall y (List.mem_cons_of_mem x hy)

theorem layer_validateE_ok (l : Layer) :
    l.validateE = .ok () ↔ layerOK l := by
  rw [Layer.validateE]
  by_cases h1 : l.size ≤ 0
  · rw [if_pos h1]
    simp only [reduceCtorEq, false_iff]
    intro hOK
    exact absurd hOK.1 (not_lt.mpr h1)
  · rw [if_neg h1]
    rcases hs : l.synapses.validateE with e | u
    · simp only [reduceCtorEq, false_iff]
      intro hOK
      rw [(synapses_validateE_ok l.synapses).mpr hOK.2.1] at hs
      exact absurd hs (by simp)
    · cases u
      dsimp only
      by_cases h2 : l.synapses.rows ≠ l.size
      · rw [if_pos h2]
        simp only [reduceCtorEq, false_iff]
        intro hOK
        exact h2 hOK.2.2.1
      · rw [if_neg h2]
        rcases hr : validateEach (fun r => r.validateE l.size) l.ranges with e | u
        · rw [hr]
          simp only [reduceCtorEq, false_iff]
          intro hOK
          have hok : validateEach (fun r => r.validateE l.size) l.ranges = .ok () :=
            (validateEach_ok _ _).mpr fun r hrm =>
              (range_validateE_ok r l.size).mpr (hOK.2.2.2.1 r hrm)
          rw [hok] at hr
          exact absurd hr (by simp)
        · cases u
          rw [hr]
          dsimp only
          rw [validateEach_ok]
          constructor
          · intro hall
            refine ⟨lt_of_not_le h1, (synapses_validateE_ok l.synapses).mp hs,
              not_not.mp h2, ?_, ?_⟩
            · intro r hrm
              exact (range_validateE_ok r l.size).mp
                ((validateEach_ok _ _).mp hr r hrm)
            · intro n hnm
              exact (neuron_validateE_ok n l.size).mp (hall n hnm)
          · intro hOK n hnm
            exact (neuron_validateE_ok n l.size).mpr (hOK.2.2.2.2 n hnm)

theorem collectProbes_ok_iff (layers : List Layer) (idx : ℕ)
    (acc : List (String × ℕ)) (metas : List ProbeMetadata) :
    (∃ x, collectProbes layers idx acc metas = .ok x) ↔
      ((∀ p ∈ layers.filterMap Layer.probe, pyStrip p ≠ "") ∧
       ((layers.filterMap Layer.probe).map pyStrip).Nodup ∧
       (∀ p ∈ layers.filterMap Layer.probe, ∀ q ∈ acc, q.1 ≠ pyStrip p)) := by
  induction layers generalizing idx acc metas with
  | nil => simp [collectProbes]
  | cons l rest ih =>
    rcases hp : l.probe with _ | p
    · rw [collectProbes, hp, ih, List.filterMap_cons_none (by exact hp)]
    · rw [collectProbes, hp, List.filterMap_cons_some (by exact hp)]
      dsimp only
      by_cases he : pyStrip p = ""
      · rw [if_pos he]
        constructor
        · rintro ⟨x, hx⟩
          exact absurd hx (by simp)
        · rintro ⟨h1, -, -⟩
          exact absurd he (h1 p (by simp))
      · rw [if_neg he]
        by_cases hdup : acc.any (fun q => decide (q.1 = pyStrip p)) = true
        · rw [if_pos hdup]
          constructor
          · rintro ⟨x, hx⟩
            exact absurd hx (by simp)
          · rintro ⟨-, -, h3⟩
            rcases List.any_eq_true.mp hdup with ⟨q, hq, hq1⟩
            exact absurd (of_decide_eq_true hq1) (h3 p (by simp) q hq)
        · rw [if_neg hdup, ih]
          have hnodup : ∀ q ∈ acc, q.1 ≠ pyStrip p := by
            intro q hq hq1
            exact hdup (List.any_eq_true.mpr ⟨q, hq, decide_eq_true hq1⟩)
          constructor
          · rintro ⟨h1, h2, h3⟩
            refine ⟨fun x hx => ?_, ?_, fun x hx q hq => ?_⟩
            · rcases List.mem_cons.mp hx with rfl | hx
              · exact he
              · exact h1 x hx
            · rw [List.map_cons, List.nodup_cons]
              refine ⟨fun hmem => ?_, h2⟩
              rcases List.mem_map.mp hmem with ⟨x, hx, hxe⟩
              exact h3 x hx (pyStrip p, idx) (by simp) hxe.symm
            · rcases List.mem_cons.mp hx with rfl | hx
              · exact hnodup q hq
              · exact h3 x hx q (List.mem_append_left _ hq)
          · rintro ⟨g1, g2, g3⟩
            rw [List.map_cons, List.nodup_cons] at g2
            refine ⟨fun x hx => g1 x (List.mem_cons_of_mem p hx), g2.2,
              fun x hx q hq => ?_⟩
            rcases List.mem_append.mp hq with hq | hq
            · exact g3 x (List.mem_cons_of_mem p hx) q hq
            · rcases List.mem_singleton.mp hq with rfl
              intro hcontra
              exact g2.1 (List.mem_map.mpr ⟨x, hx, hcontra.symm⟩)

theorem dsClockChildren_ok (o : Option ℚ) (h : posIfSet o) :
    dsClockChildren o = .ok (optChildQ "DSClockMHz" o) := by
  cases o with
  | none => rfl
  | some c =>
    rw [dsClockChildren, if_neg (not_le.mpr h)]
    rfl

theorem dsBitWidthChildren_ok (o : Option ℤ)
    (h : o = none ∨ o = some 4 ∨ o = some 8) :
    dsBitWidthChildren o = .ok (optChildZ "DSBitWidth" o) := by
  rcases h with rfl | rfl | rfl <;> rfl

theorem dsModeChild_ok (o : Option String)
    (h : o = none ∨ o = some "ThresholdMode" ∨ o = some "FrequencyMode" ∨
      o = some "") :
    dsModeChild o = .ok (Xml.elem "DSMode" [] [Xml.text (dsModeText o)]) := by
  rcases h with rfl | rfl | rfl | rfl <;> rfl

theorem defaultsChildren_ok (d : BIUNetworkDefaults) (hd : defaultsOK d) :
    defaultsChildren d = .ok (defaultsKids d) := by
  rw [defaultsChildren, dsClockChildren_ok d.DSClockMHz hd.2.1,
    dsBitWidthChildren_ok d.DSBitWidth hd.1, dsModeChild_ok d.DSMode hd.2.2]
  rfl

theorem layerElem_eq (l : Layer) (h : l.synapses.weights.length ≠ 0) :
    layerElem l = .ok (layerElemT l) := by
  rw [layerElem, synapsesElem, if_neg h]
  rfl

theorem mapM_layerElem (layers : List Layer)
    (h : ∀ l ∈ layers, l.synapses.weights.length ≠ 0) :
    layers.mapM layerElem = .ok (layers.map layerElemT) := by
  induction layers with
  | nil => rfl
  | cons l rest ih =>
    rw [List.mapM_cons, layerElem_eq l (h l (by simp)),
      ih (fun x hx => h x (List.mem_cons_of_mem l hx))]
    rfl

theorem weights_ne_nil_of_layerOK (l : Layer) (h : layerOK l) :
    l.synapses.weights.length ≠ 0 := by
  have h1 := h.2.1.1
  have h2 := h.2.1.2.2.1
  omega

theorem compile_to_xml_ok (d : BIUNetworkDefaults) (layers : List Layer)
    (inc : Bool) (hd : defaultsOK d) (hl : ∀ l ∈ layers, layerOK l) :
    compile_to_xml d layers inc =
      .ok (Xml.elem "NetworkConfig" [("type", "BIUNetwork")]
        [Xml.elem "BIUNetwork" [] (defaultsKids d),
         Xml.elem "Architecture" [] (layers.map layerElemT)],
        if inc then some supervisorXml else none) := by
  rw [compile_to_xml, (defaults_validateE_ok d).mpr hd,
    (validateEach_ok Layer.validateE layers).mpr
      (fun l hlm => (layer_validateE_ok l).mpr (hl l hlm)),
    defaultsChildren_ok d hd,
    mapM_layerElem layers (fun l hlm => weights_ne_nil_of_layerOK l (hl l hlm))]
  rfl

theorem compile_to_xml_err_defaults (d : BIUNetworkDefaults)
    (layers : List Layer) (inc : Bool) (hd : ¬ defaultsOK d) :
    ∃ e, compile_to_xml d layers inc = .error e := by
  rcases hv : d.validateE with e | u
  · refine ⟨e, ?_⟩
    rw [compile_to_xml, hv]
    rfl
  · cases u
    exact absurd ((defaults_validateE_ok d).mp hv) hd

theorem compile_to_xml_err_layers (d : BIUNetworkDefaults)
    (layers : List Layer) (inc : Bool) (hl : ¬ ∀ l ∈ layers, layerOK l) :
    ∃ e, compile_to_xml d layers inc = .error e := by
  rcases hv : d.validateE with e | u
  · refine ⟨e, ?_⟩
    rw [compile_to_xml, hv]
    rfl
  · cases u
    rcases hve : validateEach Layer.validateE layers with e | u2
    · refine ⟨e, ?_⟩
      rw [compile_to_xml, hv, hve]
      rfl
    · cases u2
      exact absurd
        (fun l hlm => (layer_validateE_ok l).mp
          ((validateEach_ok Layer.validateE layers).mp hve l hlm)) hl

theorem collect_ok_of_probesOK (layers : List Layer) (hp : probesOK layers) :
    ∃ x, collect_probe_metadata layers = .ok x := by
  rw [collect_probe_metadata]
  exact (collectProbes_ok_iff layers 0 [] []).mpr ⟨hp.1, hp.2, by simp⟩

theorem collect_err_of_not_probesOK (layers : List Layer)
    (hp : ¬ probesOK layers) :
    ∃ e, collect_probe_metadata layers = .error e := by
  rcases hc : collect_probe_metadata layers with e | x
  · exact ⟨e, rfl⟩
  · have h := (collectProbes_ok_iff layers 0 [] []).mp ⟨x, hc⟩
    exact absurd ⟨h.1, h.2.1⟩ hp

/-- Claim C2: with out_dir set, any validation violation — invalid
defaults, a bad layer (size, synapse shape, weight matrix, override
bounds), or an empty or duplicate probe name — makes compile raise
before any file or directory is created: the filesystem trace is empty
and the result is an error. -/
theorem claim_c2_validation_blocks_io (d : BIUNetworkDefaults)
    (layers : List Layer) (inc : Bool) (out : List String)
    (dataInputFile : Option (List String)) (inputData : Option (List InputSample))
    (synE neuE : Option (List String))
    (hviol : ¬ (defaultsOK d ∧ (∀ l ∈ layers, layerOK l) ∧ probesOK layers)) :
    (compileModel d layers inc (some out) dataInputFile inputData synE neuE).1 = [] ∧
    ∃ e, (compileModel d layers inc (some out) dataInputFile inputData synE neuE).2 =
      .error e := by
  rw [compileModel, if_neg (by simp)]
  by_cases h2 : inputData.isSome = true ∧ dataInputFile.isSome = true
  · rw [if_pos h2]
    exact ⟨rfl, _, rfl⟩
  · rw [if_neg h2]
    by_cases hpOK : probesOK layers
    · obtain ⟨x, hc⟩ := collect_ok_of_probesOK layers hpOK
      rw [hc]
      rcases x with ⟨p2l, metas⟩
      have hdl : ¬ defaultsOK d ∨ ¬ ∀ l ∈ layers, layerOK l := by tauto
      rcases hdl with hd | hl
      · obtain ⟨e, he⟩ := compile_to_xml_err_defaults d layers inc hd
        rw [he]
        exact ⟨rfl, e, rfl⟩
      · obtain ⟨e, he⟩ := compile_to_xml_err_layers d layers inc hl
        rw [he]
        exact ⟨rfl, e, rfl⟩
    · obtain ⟨e, he⟩ := collect_err_of_not_probesOK layers hpOK
      rw [he]
      exact ⟨rfl, e, rfl⟩

/-- Witness for claim C2: invalid defaults with a well-formed layer
produce an error and an empty filesystem trace. -/
theorem claim_c2_validation_blocks_io_witness :
    ¬ (defaultsOK c2defaults ∧ (∀ l ∈ [oneLayer], layerOK l) ∧
        probesOK [oneLayer]) ∧
    ((compileModel c2defaults [oneLayer] false (some ["out"]) none none
        none none).1 = [] ∧
      ∃ e, (compileModel c2defaults [oneLayer] false (some ["out"]) none none
        none none).2 = .error e) :=
  ⟨by decide,
    claim_c2_validation_blocks_io c2defaults [oneLayer] false ["out"]
      none none none none (by decide)⟩

/-- Claim C10: with out_dir set and neither data_input_file nor
input_data, compile always raises ValueError, and at that point biu.xml
(and supervisor.xml when requested) has already been written: the trace
retains those writes. -/
theorem claim_c10_missing_input_partial_write (d : BIUNetworkDefaults)
    (layers : List Layer) (inc : Bool) (out : List String)
    (synE neuE : Option (List String))
    (hd : defaultsOK d) (hl : ∀ l ∈ layers, layerOK l) (hp : probesOK layers) :
    ∃ biu, compileModel d layers inc (some out) none none synE neuE =
      ([FSEvent.mkdirp out, FSEvent.write (out ++ ["biu.xml"]) (.xmlDoc biu)] ++
        (if inc then
          [FSEvent.write (out ++ ["supervisor.xml"]) (.xmlDoc supervisorXml)]
        else []),
       .error "data_input_file must be provided when out_dir is specified (or supply input_data)") := by
  obtain ⟨x, hc⟩ := collect_ok_of_probesOK layers hp
  rcases x with ⟨p2l, metas⟩
  refine ⟨Xml.elem "NetworkConfig" [("type", "BIUNetwork")]
    [Xml.elem "BIUNetwork" [] (defaultsKids d),
     Xml.elem "Architecture" [] (layers.map layerElemT)], ?_⟩
  rw [compileModel, if_neg (by simp), if_neg (by simp), hc,
    compile_to_xml_ok d layers inc hd hl]
  cases inc
  · rfl
  · rfl

/-- Witness for claim C10: a valid one-layer model compiled with
include_supervisor and no input source writes biu.xml and supervisor.xml
and then raises. -/
theorem claim_c10_missing_input_partial_write_witness :
    defaultsOK c1defaults ∧ (∀ l ∈ [oneLayer], layerOK l) ∧
    probesOK [oneLayer] ∧
    ∃ biu, compileModel c1defaults [oneLayer] true (some ["out"]) none none
        none none =
      ([FSEvent.mkdirp ["out"],
        FSEvent.write (["out"] ++ ["biu.xml"]) (.xmlDoc biu)] ++
        (if true then
          [FSEvent.write (["out"] ++ ["supervisor.xml"]) (.xmlDoc supervisorXml)]
        else []),
       .error "data_input_file must be provided when out_dir is specified (or supply input_data)") :=
  ⟨by decide, by decide, by decide,
    claim_c10_missing_input_partial_write c1defaults [oneLayer] true ["out"]
      none none (by decide) (by decide) (by decide)⟩

theorem layer_children_pos (l : Layer) (i j : ℕ) (x y : Xml)
    (hx : (layerElemT l).childrenOf.get? i = some x)
    (htx : x.tagOf = some "NeuronRange")
    (hy : (layerElemT l).childrenOf.get? j = some y)
    (hty : y.tagOf = some "Neuron") : i < j := by
  have hC : (layerElemT l).childrenOf =
      synapsesElemT l.synapses ::
        (l.ranges.map rangeElem ++ l.neurons.map neuronElem) := rfl
  rw [hC] at hx hy
  rcases i with _ | i'
  · rw [List.get?_cons_zero] at hx
    cases hx
    simp [synapsesElemT, Xml.tagOf] at htx
  · rw [List.get?_cons_succ] at hx
    rcases j with _ | j'
    · rw [List.get?_cons_zero] at hy
      cases hy
      simp [synapsesElemT, Xml.tagOf] at hty
    · rw [List.get?_cons_succ] at hy
      have hi : i' < (l.ranges.map rangeElem).length := by
        by_contra hcon
        rw [List.get?_append_right (le_of_not_lt hcon), List.get?_map] at hx
        rcases hn : (l.neurons.get? (i' - (l.ranges.map rangeElem).length)) with _ | n
        · rw [hn] at hx
          exact absurd hx (by simp)
        · rw [hn] at hx
          cases hx
          simp [neuronElem, Xml.tagOf] at htx
      have hj : (l.ranges.map rangeElem).length ≤ j' := by
        by_contra hcon
        rw [List.get?_append (lt_of_not_le hcon), List.get?_map] at hy
        rcases hrj : (l.ranges.get? j') with _ | r
        · rw [hrj] at hy
          exact absurd hy (by simp)
        · rw [hrj] at hy
          cases hy
          simp [rangeElem, Xml.tagOf] at hty
      omega

/-- Claim C3: for every valid input, the primary document produced by
compile_to_xml lists, inside each layer element and in order, the
synapse block, then the declared range overrides in declaration order,
then the declared single-neuron overrides in declaration order; only set
fields of each override are emitted, and every Neuron element sits at a
later child position than every NeuronRange element. -/
theorem claim_c3_override_order (d : BIUNetworkDefaults) (layers : List Layer)
    (inc : Bool) (hd : defaultsOK d) (hl : ∀ l ∈ layers, layerOK l) :
    (∃ dc, compile_to_xml d layers inc =
      .ok (Xml.elem "NetworkConfig" [("type", "BIUNetwork")]
        [Xml.elem "BIUNetwork" [] dc,
         Xml.elem "Architecture" [] (layers.map layerElemT)],
        if inc then some supervisorXml else none)) ∧
    (∀ l ∈ layers, (layerElemT l).childrenOf =
      synapsesElemT l.synapses ::
        (l.ranges.map rangeElem ++ l.neurons.map neuronElem)) ∧
    (∀ r : NeuronOverrideRange, (rangeElem r).childrenOf =
      optChildQ "VTh" r.VTh ++ optChildQ "RLeak" r.RLeak ++
        optChildZ "refractory" r.refractory) ∧
    (∀ n : NeuronOverride, (neuronElem n).childrenOf =
      optChildQ "VTh" n.VTh ++ optChildQ "RLeak" n.RLeak ++
        optChildZ "refractory" n.refractory) ∧
    (∀ (t : String) (v : Option ℚ), optChildQ t v = [] ↔ v = none) ∧
    (∀ (t : String) (v : Option ℤ), optChildZ t v = [] ↔ v = none) ∧
    (∀ l ∈ layers, ∀ (i j : ℕ) (x y : Xml),
      (layerElemT l).childrenOf.get? i = some x →
      x.tagOf = some "NeuronRange" →
      (layerElemT l).childrenOf.get? j = some y →
      y.tagOf = some "Neuron" → i < j) := by
  refine ⟨⟨defaultsKids d, compile_to_xml_ok d layers inc hd hl⟩,
    fun l _ => rfl, fun r => rfl, fun n => rfl, ?_, ?_, ?_⟩
  · intro t v
    cases v <;> simp [optChildQ]
  · intro t v
    cases v <;> simp [optChildZ]
  · intro l _ i j x y hx htx hy hty
    exact layer_children_pos l i j x y hx htx hy hty

/-- Witness for claim C3 at a concrete layer with two ranges and one
neuron override. -/
theorem claim_c3_override_order_witness :
    defaultsOK c1defaults ∧ (∀ l ∈ [c3layer], layerOK l) ∧
    (layerElemT c3layer).childrenOf =
      synapsesElemT c3layer.synapses ::
        (c3layer.ranges.map rangeElem ++ c3layer.neurons.map neuronElem) ∧
    ∃ dc, compile_to_xml c1defaults [c3layer] false =
      .ok (Xml.elem "NetworkConfig" [("type", "BIUNetwork")]
        [Xml.elem "BIUNetwork" [] dc,
         Xml.elem "Architecture" [] ([c3layer].map layerElemT)],
        if false then some supervisorXml else none) := by
  have h := claim_c3_override_order c1defaults [c3layer] false
    (by decide) (by decide)
  exact ⟨by decide, by decide, h.2.1 c3layer (by simp), h.1⟩

@[simp]
theorem tagIs_elem (t u : String) (a : List (String × String)) (c : List Xml) :
    tagIs t (Xml.elem u a c) = decide (u = t) := by
  simp [tagIs, Xml.tagOf]

@[simp]
theorem tagIs_text (t s : String) : tagIs t (Xml.text s) = false := by
  simp [tagIs, Xml.tagOf]

@[simp]
theorem any_tagIs_optChildQ (t t' : String) (v : Option ℚ) :
    (optChildQ t v).any (tagIs t') = (decide (t = t') && v.isSome) := by
  cases v <;> simp [optChildQ]

@[simp]
theorem any_tagIs_optChildZ (t t' : String) (v : Option ℤ) :
    (optChildZ t v).any (tagIs t') = (decide (t = t') && v.isSome) := by
  cases v <;> simp [optChildZ]

@[simp]
theorem filter_tagIs_optChildQ (t t' : String) (v : Option ℚ) :
    (optChildQ t v).filter (tagIs t') = if t = t' then optChildQ t v else [] := by
  cases v with
  | none => simp [optChildQ]
  | some x =>
    by_cases h : t = t'
    · simp [optChildQ, List.filter, h]
    · simp [optChildQ, List.filter, h]

@[simp]
theorem filter_tagIs_optChildZ (t t' : String) (v : Option ℤ) :
    (optChildZ t v).filter (tagIs t') = if t = t' then optChildZ t v else [] := by
  cases v with
  | none => simp [optChildZ]
  | some x =>
    by_cases h : t = t'
    · simp [optChildZ, List.filter, h]
    · simp [optChildZ, List.filter, h]

/-- Claim C7: for valid defaults (where a missing or empty mode is
accepted), emission always writes exactly one DSMode element — with text
ThresholdMode when the mode is unset or empty and the declared value
otherwise — while every other defaults field is emitted exactly when it
is set. -/
theorem claim_c7_dsmode_default (d : BIUNetworkDefaults) (hd : defaultsOK d) :
    defaultsChildren d = .ok (defaultsKids d) ∧
    (defaultsKids d).filter (tagIs "DSMode") =
      [Xml.elem "DSMode" [] [Xml.text (dsModeText d.DSMode)]] ∧
    ((d.DSMode = none ∨ d.DSMode = some "") → dsModeText d.DSMode = "ThresholdMode") ∧
    (∀ m, d.DSMode = some m → m ≠ "" → dsModeText d.DSMode = m) ∧
    ((defaultsKids d).any (tagIs "VTh") = d.VTh.isSome) ∧
    ((defaultsKids d).any (tagIs "RLeak") = d.RLeak.isSome) ∧
    ((defaultsKids d).any (tagIs "refractory") = d.refractory.isSome) ∧
    ((defaultsKids d).any (tagIs "VDD") = d.VDD.isSome) ∧
    ((defaultsKids d).any (tagIs "Cn") = d.Cn.isSome) ∧
    ((defaultsKids d).any (tagIs "Cu") = d.Cu.isSome) ∧
    ((defaultsKids d).any (tagIs "fclk") = d.fclk.isSome) ∧
    ((defaultsKids d).any (tagIs "DSClockMHz") = d.DSClockMHz.isSome) ∧
    ((defaultsKids d).any (tagIs "DSBitWidth") = d.DSBitWidth.isSome) := by
  refine ⟨defaultsChildren_ok d hd, ?_, ?_, ?_, ?_, ?_, ?_, ?_, ?_, ?_, ?_, ?_, ?_⟩
  · rw [defaultsKids]
    simp [List.filter_append]
  · rintro (hm | hm) <;> rw [hm] <;> rfl
  · intro m hm hne
    rw [hm, dsModeText, if_neg hne]
  all_goals
    rw [defaultsKids]
    simp [List.any_append]

/-- Witness for claim C7 with an empty declared mode and a mix of set
and unset fields. -/
theorem claim_c7_dsmode_default_witness :
    defaultsOK c7defaults ∧
    (defaultsChildren c7defaults = .ok (defaultsKids c7defaults) ∧
     (defaultsKids c7defaults).filter (tagIs "DSMode") =
       [Xml.elem "DSMode" [] [Xml.text (dsModeText c7defaults.DSMode)]] ∧
     ((c7defaults.DSMode = none ∨ c7defaults.DSMode = some "") →
       dsModeText c7defaults.DSMode = "ThresholdMode") ∧
     (∀ m, c7defaults.DSMode = some m → m ≠ "" →
       dsModeText c7defaults.DSMode = m) ∧
     ((defaultsKids c7defaults).any (tagIs "VTh") = c7defaults.VTh.isSome) ∧
     ((defaultsKids c7defaults).any (tagIs "RLeak") = c7defaults.RLeak.isSome) ∧
     ((defaultsKids c7defaults).any (tagIs "refractory") = c7defaults.refractory.isSome) ∧
     ((defaultsKids c7defaults).any (tagIs "VDD") = c7defaults.VDD.isSome) ∧
     ((defaultsKids c7defaults).any (tagIs "Cn") = c7defaults.Cn.isSome) ∧
     ((defaultsKids c7defaults).any (tagIs "Cu") = c7defaults.Cu.isSome) ∧
     ((defaultsKids c7defaults).any (tagIs "fclk") = c7defaults.fclk.isSome) ∧
     ((defaultsKids c7defaults).any (tagIs "DSClockMHz") = c7defaults.DSClockMHz.isSome) ∧
     ((defaultsKids c7defaults).any (tagIs "DSBitWidth") = c7defaults.DSBitWidth.isSome)) :=
  ⟨by decide, claim_c7_dsmode_default c7defaults (by decide)⟩

theorem digitChar_isDigit (d : ℕ) (h : d < 10) :
    (Nat.digitChar d).isDigit = true := by
  interval_cases d <;> decide

theorem digitChar_toNat (d : ℕ) (h : d < 10) :
    (Nat.digitChar d).toNat - 48 = d := by
  interval_cases d <;> decide

theorem digitsVal_append_one (cs : List Char) (c : Char) :
    digitsVal (cs ++ [c]) = digitsVal cs * 10 + (c.toNat - 48) := by
  rw [digitsVal, digitsVal, List.foldl_append]
  rfl

theorem natChars_spec (n : ℕ) :
    (∀ c ∈ natChars n, c.isDigit = true) ∧ digitsVal (natChars n) = n ∧
      natChars n ≠ [] := by
  induction n using Nat.strong_induction_on with
  | _ n ih =>
    rw [natChars]
    by_cases h : n < 10
    · rw [dif_pos h]
      refine ⟨?_, ?_, by simp⟩
      · intro c hc
        rw [List.mem_singleton.mp hc]
        exact digitChar_isDigit n h
      · rw [show [Nat.digitChar n] = [] ++ [Nat.digitChar n] from rfl,
          digitsVal_append_one]
        have := digitChar_toNat n h
        simp [digitsVal]
        omega
    · rw [dif_neg h]
      have hlt : n / 10 < n := Nat.div_lt_self (by omega) (by omega)
      obtain ⟨ih1, ih2, ih3⟩ := ih (n / 10) hlt
      refine ⟨?_, ?_, by simp⟩
      · intro c hc
        rcases List.mem_append.mp hc with hc | hc
        · exact ih1 c hc
        · rw [List.mem_singleton.mp hc]
          exact digitChar_isDigit (n % 10) (Nat.mod_lt n (by omega))
      · rw [digitsVal_append_one, ih2,
          digitChar_toNat (n % 10) (Nat.mod_lt n (by omega))]
        omega

theorem natChars_lt10 (n : ℕ) (h : n < 10) : natChars n = [Nat.digitChar n] := by
  rw [natChars, dif_pos h]

theorem natChars_ge10 (n : ℕ) (h : ¬ n < 10) :
    natChars n = natChars (n / 10) ++ [Nat.digitChar (n % 10)] := by
  rw [natChars, dif_neg h]

theorem toDigitsCore_natChars (f : ℕ) : ∀ (n : ℕ), n < f → ∀ (acc : List Char),
    Nat.toDigitsCore 10 f n acc = natChars n ++ acc := by
  induction f with
  | zero => intro n hn; omega
  | succ f ih =>
    intro n hn acc
    rw [Nat.toDigitsCore]
    by_cases hdiv : n / 10 = 0
    · have h10 : n < 10 := by omega
      rw [if_pos hdiv, natChars_lt10 n h10, Nat.mod_eq_of_lt h10]
      rfl
    · have h10 : ¬ n < 10 := by
        intro hcon
        exact hdiv (Nat.div_eq_of_lt hcon)
      have hd : 0 < n := by omega
      rw [if_neg hdiv,
        ih (n / 10) (by
          have := Nat.div_lt_self hd (by omega : 1 < 10)
          omega) (Nat.digitChar (n % 10) :: acc),
        natChars_ge10 n h10]
      simp

theorem repr_toList_natChars (n : ℕ) : (Nat.repr n).toList = natChars n := by
  rw [Nat.repr, Nat.toDigits]
  show (Nat.toDigitsCore 10 (n + 1) n []).asString.toList = natChars n
  rw [toDigitsCore_natChars (n + 1) n (by omega) []]
  simp [List.asString]

theorem toString_nat_toList (n : ℕ) : (toString n).toList = natChars n :=
  repr_toList_natChars n

theorem toString_nat_data (n : ℕ) : (toString n).data = natChars n :=
  repr_toList_natChars n

theorem isDigit_ne (c : Char) (h : c.isDigit = true) :
    c ≠ '_' ∧ c ≠ '-' ∧ c ≠ '+' := by
  refine ⟨?_, ?_, ?_⟩ <;> intro heq <;> rw [heq] at h <;> exact absurd h (by decide)

theorem isPre_append_self (as bs : List Char) : isPre as (as ++ bs) = true := by
  induction as with
  | nil => rfl
  | cons a as ih => simp [isPre, ih]

theorem isSuf_append_self (bs as : List Char) : isSuf bs (as ++ bs) = true := by
  rw [isSuf, List.reverse_append]
  exact isPre_append_self bs.reverse as.reverse

theorem stemOf_txt (xs : List Char) (hne : xs ≠ []) :
    stemOf (xs ++ ['.', 't', 'x', 't']) = xs := by
  rw [stemOf]
  have hrev : (xs ++ ['.', 't', 'x', 't']).reverse =
      't' :: 'x' :: 't' :: '.' :: xs.reverse := by
    rw [List.reverse_append]
    rfl
  rw [hrev]
  have hfind : List.findIdx? (fun c => decide (c = '.'))
      ('t' :: 'x' :: 't' :: '.' :: xs.reverse) = some 3 := by
    simp [List.findIdx?_cons]
  rw [hfind]
  dsimp only
  have hxslen : xs.length ≠ 0 := fun hz => hne (List.eq_nil_of_length_eq_zero hz)
  rw [if_neg (by simp only [List.length_cons, List.length_reverse]; omega)]
  show ((('t' :: 'x' :: 't' :: '.' :: xs.reverse).drop 4).reverse) = xs
  simp

theorem splitOnChar_ne_nil (c : Char) (l : List Char) : splitOnChar c l ≠ [] := by
  cases l with
  | nil => simp [splitOnChar]
  | cons x xs =>
    rw [splitOnChar]
    rcases h : splitOnChar c xs with _ | ⟨h', t⟩
    · simp
    · by_cases hx : x = c
      · simp [hx]
      · simp [hx]

theorem splitOnChar_no_sep (c : Char) (xs : List Char) (h : c ∉ xs) :
    splitOnChar c xs = [xs] := by
  induction xs with
  | nil => rfl
  | cons x xs ih =>
    have hxc : ¬ x = c := by
      intro hx
      exact h (hx ▸ List.mem_cons_self x xs)
    rw [splitOnChar, ih (fun hc => h (List.mem_cons_of_mem x hc))]
    dsimp only
    rw [if_neg hxc]

theorem splitOnChar_append_sep (c : Char) (xs ys : List Char) (h : c ∉ xs) :
    splitOnChar c (xs ++ c :: ys) = xs :: splitOnChar c ys := by
  induction xs with
  | nil =>
    rw [List.nil_append, splitOnChar]
    rcases hs : splitOnChar c ys with _ | ⟨h', t⟩
    · exact absurd hs (splitOnChar_ne_nil c ys)
    · dsimp only
      rw [if_pos rfl]
  | cons x xs ih =>
    have hxc : ¬ x = c := by
      intro hx
      exact h (hx ▸ List.mem_cons_self x xs)
    rw [List.cons_append, splitOnChar,
      ih (fun hc => h (List.mem_cons_of_mem x hc))]
    dsimp only
    rw [if_neg hxc]

theorem no_underscore_of_digits (cs : List Char)
    (h : ∀ c ∈ cs, c.isDigit = true) : '_' ∉ cs := by
  intro hmem
  exact absurd rfl ((isDigit_ne '_' (h '_' hmem)).1)

theorem pyIntParse_digits (cs : List Char) (hne : cs ≠ [])
    (h : ∀ c ∈ cs, c.isDigit = true) :
    pyIntParse cs = some ((digitsVal cs : ℤ)) := by
  rcases cs with _ | ⟨c, rest⟩
  · exact absurd rfl hne
  · have hc := isDigit_ne c (h c (by simp))
    rw [pyIntParse, if_neg hc.2.1, if_neg hc.2.2,
      if_pos (List.all_eq_true.mpr fun x hx => h x hx)]

theorem parseNeuronFile_canonical (layerIdx n : ℕ) :
    parseNeuronFile ("spikes" ++ "_" ++ toString layerIdx ++ "_")
      (canonicalSignalName "spikes" layerIdx n) = some ((n : ℤ)) := by
  obtain ⟨hLdig, hLval, hLne⟩ := natChars_spec layerIdx
  obtain ⟨hNdig, hNval, hNne⟩ := natChars_spec n
  have hhead : ("spikes" ++ "_" ++ toString layerIdx ++ "_").toList =
      (['s', 'p', 'i', 'k', 'e', 's'] ++ '_' :: (natChars layerIdx ++ ['_'])) := by
    simp [String.data_append, toString_nat_data]
  have hname : (canonicalSignalName "spikes" layerIdx n).toList =
      ((['s', 'p', 'i', 'k', 'e', 's'] ++ '_' :: (natChars layerIdx ++ ['_'])) ++
        (natChars n ++ ['.', 't', 'x', 't'])) := by
    simp [canonicalSignalName, String.data_append, toString_nat_data]
  have hglob : globMatchTxt
      (['s', 'p', 'i', 'k', 'e', 's'] ++ '_' :: (natChars layerIdx ++ ['_']))
      ((['s', 'p', 'i', 'k', 'e', 's'] ++ '_' :: (natChars layerIdx ++ ['_'])) ++
        (natChars n ++ ['.', 't', 'x', 't'])) = true := by
    rw [globMatchTxt]
    refine (Bool.and_eq_true _ _).mpr ⟨(Bool.and_eq_true _ _).mpr ⟨?_, ?_⟩, ?_⟩
    · refine decide_eq_true ?_
      simp only [List.length_append, List.length_cons, List.length_nil]
      omega
    · exact isPre_append_self _ _
    · rw [show ((['s', 'p', 'i', 'k', 'e', 's'] ++
          '_' :: (natChars layerIdx ++ ['_'])) ++
          (natChars n ++ ['.', 't', 'x', 't'])) =
          (((['s', 'p', 'i', 'k', 'e', 's'] ++
          '_' :: (natChars layerIdx ++ ['_'])) ++ natChars n) ++
          ['.', 't', 'x', 't']) by simp]
      exact isSuf_append_self _ _
  have hstem : stemOf
      ((['s', 'p', 'i', 'k', 'e', 's'] ++ '_' :: (natChars layerIdx ++ ['_'])) ++
        (natChars n ++ ['.', 't', 'x', 't'])) =
      ['s', 'p', 'i', 'k', 'e', 's'] ++
        '_' :: (natChars layerIdx ++ '_' :: natChars n) := by
    rw [show ((['s', 'p', 'i', 'k', 'e', 's'] ++
        '_' :: (natChars layerIdx ++ ['_'])) ++
        (natChars n ++ ['.', 't', 'x', 't'])) =
        ((['s', 'p', 'i', 'k', 'e', 's'] ++
        '_' :: (natChars layerIdx ++ '_' :: natChars n)) ++
        ['.', 't', 'x', 't']) by simp]
    exact stemOf_txt _ (by simp)
  have hsplit : splitOnChar '_'
      (['s', 'p', 'i', 'k', 'e', 's'] ++
        '_' :: (natChars layerIdx ++ '_' :: natChars n)) =
      [['s', 'p', 'i', 'k', 'e', 's'], natChars layerIdx, natChars n] := by
    rw [splitOnChar_append_sep '_' _ _ (by decide),
      splitOnChar_append_sep '_' _ _ (no_underscore_of_digits _ hLdig),
      splitOnChar_no_sep '_' _ (no_underscore_of_digits _ hNdig)]
  rw [parseNeuronFile, hhead, hname, if_pos hglob, hstem, hsplit]
  simp only [List.length_cons, List.length_nil, List.getD,
    List.getElem?_cons_succ, List.getElem?_cons_zero, Option.getD_some]
  rw [if_pos (by norm_num)]
  show pyIntParse (natChars n) = some ((n : ℤ))
  rw [pyIntParse_digits (natChars n) hNne hNdig, hNval]

theorem mem_sortedDedupInt (l : List ℤ) (a : ℤ) :
    a ∈ sortedDedupInt l ↔ a ∈ l := by
  rw [sortedDedupInt, List.Perm.mem_iff (List.perm_insertionSort _ _)]
  exact List.mem_dedup

theorem sorted_sortedDedupInt (l : List ℤ) :
    (sortedDedupInt l).Sorted (fun a b => a ≤ b) :=
  List.sorted_insertionSort _ l.dedup

theorem nodup_sortedDedupInt (l : List ℤ) : (sortedDedupInt l).Nodup :=
  ((List.perm_insertionSort _ _).nodup_iff).mpr (List.nodup_dedup l)

/-- Claim C5: a metadata-backed probe lists exactly the indices
0..size-1 regardless of which files exist; a metadata-less probe lists
exactly the sorted, duplicate-free set of indices whose matching spikes
file exists in the output directory. -/
theorem claim_c5_neuron_index_listing (m : ProbeMetadata) (layerIdx : ℕ)
    (files files2 : List String) (signal : Option String)
    (hwf : ∀ f ∈ files2,
      (∃ n : ℕ, f = canonicalSignalName "spikes" layerIdx n) ∨
        parseNeuronFile ("spikes" ++ "_" ++ toString layerIdx ++ "_") f = none) :
    list_neuron_indices (some m) layerIdx files signal =
      (List.range m.layerSize.toNat).map (fun n => (n : ℤ)) ∧
    (∀ j : ℤ, j ∈ list_neuron_indices none layerIdx files2 none ↔
      ∃ n : ℕ, j = (n : ℤ) ∧ canonicalSignalName "spikes" layerIdx n ∈ files2) ∧
    (list_neuron_indices none layerIdx files2 none).Sorted (fun a b => a ≤ b) ∧
    (list_neuron_indices none layerIdx files2 none).Nodup := by
  refine ⟨rfl, ?_, ?_, ?_⟩
  · intro j
    show j ∈ sortedDedupInt (files2.filterMap
      (parseNeuronFile ("spikes" ++ "_" ++ toString layerIdx ++ "_"))) ↔ _
    rw [mem_sortedDedupInt, List.mem_filterMap]
    constructor
    · rintro ⟨f, hf, hpf⟩
      rcases hwf f hf with ⟨n, rfl⟩ | hnone
      · rw [parseNeuronFile_canonical] at hpf
        refine ⟨n, ?_, hf⟩
        exact (Option.some_inj.mp hpf).symm
      · rw [hnone] at hpf
        exact absurd hpf (by simp)
    · rintro ⟨n, rfl, hmem⟩
      exact ⟨_, hmem, parseNeuronFile_canonical layerIdx n⟩
  · exact sorted_sortedDedupInt _
  · exact nodup_sortedDedupInt _

/-- Witness for claim C5: layer size 3 with only neuron 1's file on
disk — the metadata-backed listing is [0, 1, 2], the discovery-based
listing is [1]. -/
theorem claim_c5_neuron_index_listing_witness :
    (∀ f ∈ ["spikes_0_1.txt"],
      (∃ n : ℕ, f = canonicalSignalName "spikes" 0 n) ∨
        parseNeuronFile ("spikes" ++ "_" ++ toString 0 ++ "_") f = none) ∧
    list_neuron_indices (some ⟨"p", 0, 3⟩) 0 ["spikes_0_1.txt"] none =
      (List.range (3 : ℤ).toNat).map (fun n => (n : ℤ)) ∧
    (1 : ℤ) ∈ list_neuron_indices none 0 ["spikes_0_1.txt"] none ∧
    list_neuron_indices (some ⟨"p", 0, 3⟩) 0 ["spikes_0_1.txt"] none = [0, 1, 2] ∧
    list_neuron_indices none 0 ["spikes_0_1.txt"] none = [1] := by
  have hwf : ∀ f ∈ ["spikes_0_1.txt"],
      (∃ n : ℕ, f = canonicalSignalName "spikes" 0 n) ∨
        parseNeuronFile ("spikes" ++ "_" ++ toString 0 ++ "_") f = none := by
    intro f hf
    rcases List.mem_singleton.mp hf with rfl
    exact Or.inl ⟨1, by decide⟩
  have h := claim_c5_neuron_index_listing ⟨"p", 0, 3⟩ 0 ["spikes_0_1.txt"]
    ["spikes_0_1.txt"] none hwf
  exact ⟨hwf, h.1, (h.2.1 1).mpr ⟨1, rfl, by decide⟩, by decide, by decide⟩

/-- Claim C4 (code evaluation): the run-configuration path helper has no
base-relative mode left — os_path_relativize returns its absolute input
unchanged instead of the base-relative path with ".." segments that the
spec (and the repository test suite) require; only the re-join identity
still holds, trivially, because joining an absolute path discards the
base. -/
theorem claim_c4_relative_mode_removed :
    os_path_relativize c4p c4base = c4p ∧
    (os_path_relativize c4p c4base).isAbs = true ∧
    specRelativize c4p c4base =
      ⟨false, ["..", "..", "scenario", "biu.xml"]⟩ ∧
    os_path_relativize c4p c4base ≠ specRelativize c4p c4base ∧
    pathJoin c4base (os_path_relativize c4p c4base) = c4p ∧
    normPath (pathJoin c4base (specRelativize c4p c4base)) = c4p :=
  ⟨rfl, rfl, by decide, by decide, by decide, by decide⟩

/-- Claim C9 (code evaluation): the weight-token trimming of
compile_to_xml preserves the value of a plain decimal repr such as 7.0
but corrupts scientific notation whose exponent ends in zero: the float
1e-10, whose repr is the token 1e-10, is emitted as 1e-1, which parses
back to 1/10 instead of 1/10^10. -/
theorem claim_c9_trim_corrupts_scientific :
    trimFloatRepr "7.0" = "7" ∧
    sciVal (trimFloatRepr "7.0") = sciVal "7.0" ∧
    trimFloatRepr "1e-10" = "1e-1" ∧
    sciVal "1e-10" = some (1 / 10 ^ 10) ∧
    sciVal "1e-1" = some (1 / 10) ∧
    sciVal (trimFloatRepr "1e-10") ≠ sciVal "1e-10" := by
  have h1 : trimFloatRepr "7.0" = "7" := by decide
  have h2 : trimFloatRepr "1e-10" = "1e-1" := by decide
  have h70 : sciVal "7.0" = some 7 := by
    simp [sciVal, splitAtE, parseMant, parseExp, parseSign, splitAtDot,
      digitsVal]
    all_goals norm_num
  have h7 : sciVal "7" = some 7 := by
    simp [sciVal, splitAtE, parseMant, parseExp, parseSign, splitAtDot,
      digitsVal]
    all_goals norm_num
  have hA : sciVal "1e-10" = some (1 / 10 ^ 10) := by
    simp [sciVal, splitAtE, parseMant, parseExp, parseSign, splitAtDot,
      digitsVal]
    all_goals norm_num
  have hB : sciVal "1e-1" = some (1 / 10) := by
    simp [sciVal, splitAtE, parseMant, parseExp, parseSign, splitAtDot,
      digitsVal]
    all_goals norm_num
  refine ⟨h1, by rw [h1, h7, h70], h2, hA, hB, ?_⟩
  rw [h2, hB, hA]
  norm_num

/-- Counterexample to claim C6 as stated: a binary that exists and is a
regular file but is not executable passes every pre-launch check of
NemoSimRunner.run, so no error is raised before the child process is
launched. -/
theorem claim_c6_counterexample :
    fsLookup c6fsNonExec c6bin = some ⟨true, false⟩ ∧
    runPre c6fsNonExec c6wd c6bin c6cfg [] =
      .ok ⟨["/work/NEMOSIM", "/out/config.json"], c6wd⟩ := by
  refine ⟨by decide, rfl⟩

/-- Claim C6 (amended): the binary path is resolved in the order
explicit constructor argument, then non-empty NEMOSIM_BINARY
environment value, then the default name NEMOSIM under the working
directory; a binary that is missing or is not a regular file raises
before the child process is launched.  Executability is not checked
before launch. -/
theorem claim_c6_binary_resolution (wd b : PyPath) (s : String)
    (fs : List (PyPath × FileKind)) (cfg : PyPath) (extra : List String)
    (hwd : (fsLookup fs wd).isSome = true) :
    resolveBinary wd (some b) (some s) = b ∧
    resolveBinary wd (some b) none = b ∧
    (s ≠ "" → resolveBinary wd none (some s) = pathFromString s) ∧
    resolveBinary wd none (some "") = ⟨wd.isAbs, wd.parts ++ ["NEMOSIM"]⟩ ∧
    resolveBinary wd none none = ⟨wd.isAbs, wd.parts ++ ["NEMOSIM"]⟩ ∧
    (∀ binary, fsLookup fs binary = none →
      runPre fs wd binary cfg extra = .error "Simulator binary not found") ∧
    (∀ binary k, fsLookup fs binary = some k → k.isFile = false →
      runPre fs wd binary cfg extra =
        .error "Simulator binary is not a file") := by
  have hwdn : ¬ (fsLookup fs wd).isNone = true := by
    rcases h : fsLookup fs wd with _ | k
    · rw [h] at hwd
      exact absurd hwd (by simp)
    · simp
  refine ⟨rfl, rfl, ?_, ?_, rfl, ?_, ?_⟩
  · intro hs
    rw [resolveBinary]
    rw [if_pos hs]
  · rfl
  · intro binary hbin
    rw [runPre, if_neg hwdn, hbin]
  · intro binary k hbin hk
    rw [runPre, if_neg hwdn, hbin]
    dsimp only
    rw [if_pos hk]

/-- Witness for the amended claim C6 at the concrete runner scenario. -/
theorem claim_c6_binary_resolution_witness :
    (fsLookup c6fsNonExec c6wd).isSome = true ∧
    (resolveBinary c6wd (some c6bin) (some "other") = c6bin ∧
     ("other" ≠ "" →
       resolveBinary c6wd none (some "other") = pathFromString "other") ∧
     resolveBinary c6wd none (some "") =
       ⟨c6wd.isAbs, c6wd.parts ++ ["NEMOSIM"]⟩ ∧
     (∀ binary, fsLookup c6fsNonExec binary = none →
       runPre c6fsNonExec c6wd binary c6cfg [] =
         .error "Simulator binary not found")) := by
  have h := claim_c6_binary_resolution c6wd c6bin "other" c6fsNonExec c6cfg []
    (by decide)
  exact ⟨by decide, h.1, h.2.2.1, h.2.2.2.1, h.2.2.2.2.2.1⟩

theorem fileValues_cons (l : String) (ls : List String) :
    fileValues (l :: ls) =
      if pyStrip l = "" then fileValues ls else pyStrip l :: fileValues ls := by
  by_cases h : pyStrip l = "" <;> simp [fileValues, h]

theorem fileValues_append (a b : List String) :
    fileValues (a ++ b) = fileValues a ++ fileValues b := by
  simp [fileValues]

theorem consumeLines_lt (caster : String → α) (k : ℕ) (lines : List String) :
    ∀ y, y + (fileValues lines).length < k →
    consumeLines caster (some k) lines y =
      ((fileValues lines).map caster, y + (fileValues lines).length, false) := by
  induction lines with
  | nil =>
    intro y hy
    simp [consumeLines, fileValues]
  | cons l ls ih =>
    intro y hy
    rw [consumeLines]
    by_cases ht : pyStrip l = ""
    · have hfv : fileValues (l :: ls) = fileValues ls := by
        rw [fileValues_cons, if_pos ht]
      rw [hfv] at hy ⊢
      rw [if_pos ht]
      exact ih y hy
    · have hfv : fileValues (l :: ls) = pyStrip l :: fileValues ls := by
        rw [fileValues_cons, if_neg ht]
      rw [hfv] at hy ⊢
      simp only [List.length_cons] at hy
      rw [if_neg ht]
      dsimp only
      have hcap : capReached (some k) (y + 1) = false := by
        rw [capReached]
        simp
        omega
      rw [hcap, if_neg Bool.false_ne_true, ih (y + 1) (by omega)]
      simp only [List.map_cons, List.length_cons, Prod.mk.injEq]
      exact ⟨by trivial, by omega, by trivial⟩

theorem consumeLines_ge (caster : String → α) (k : ℕ) (lines : List String) :
    ∀ y, y < k → k ≤ y + (fileValues lines).length →
    consumeLines caster (some k) lines y =
      (((fileValues lines).take (k - y)).map caster, k, true) := by
  induction lines with
  | nil =>
    intro y hy hk
    simp [fileValues] at hk
    omega
  | cons l ls ih =>
    intro y hy hk
    rw [consumeLines]
    by_cases ht : pyStrip l = ""
    · have hfv : fileValues (l :: ls) = fileValues ls := by
        rw [fileValues_cons, if_pos ht]
      rw [hfv] at hk ⊢
      rw [if_pos ht]
      exact ih y hy hk
    · have hfv : fileValues (l :: ls) = pyStrip l :: fileValues ls := by
        rw [fileValues_cons, if_neg ht]
      rw [hfv] at hk ⊢
      simp only [List.length_cons] at hk
      rw [if_neg ht]
      dsimp only
      by_cases hcap : k ≤ y + 1
      · have hc : capReached (some k) (y + 1) = true := by
          rw [capReached]
          simp
          omega
        rw [hc, if_pos rfl]
        have h1 : k - y = 1 := by omega
        rw [h1, List.take_succ_cons, List.take_zero]
        simp only [List.map_cons, List.map_nil, Prod.mk.injEq]
        exact ⟨by trivial, by omega, by trivial⟩
      · have hc : capReached (some k) (y + 1) = false := by
          rw [capReached]
          simp
          omega
        rw [hc, if_neg Bool.false_ne_true, ih (y + 1) (by omega) (by omega)]
        have h2 : k - y = (k - (y + 1)) + 1 := by omega
        rw [h2, List.take_succ_cons]
        simp only [List.map_cons]

theorem chain_extendsL_getLastD :
    ∀ (rest : List (List String)) (cur : List String),
    List.Chain' extendsL (cur :: rest) → extendsL cur (rest.getLastD cur) := by
  intro rest
  induction rest with
  | nil =>
    intro cur h
    exact ⟨[], by simp⟩
  | cons nxt rest' ih =>
    intro cur h
    rw [List.getLastD_cons]
    obtain ⟨h1, h2⟩ := List.chain'_cons.mp h
    rcases h1 with ⟨t1, rfl⟩
    rcases ih _ h2 with ⟨t2, he⟩
    exact ⟨t1 ++ t2, by rw [he, List.append_assoc]⟩

theorem watchGo_spec (caster : String → α) (k : ℕ) :
    ∀ (rest : List (List String)) (cur : List String) (c y : ℕ),
    c ≤ cur.length →
    (fileValues (cur.take c)).length = y →
    y < k →
    List.Chain' extendsL (cur :: rest) →
    k ≤ (fileValues (rest.getLastD cur)).length →
    watchGo caster true (some k) rest cur c y =
      ((((fileValues (rest.getLastD cur)).drop y).take (k - y)).map caster,
        true) := by
  intro rest
  induction rest with
  | nil =>
    intro cur c y hc hy hyk hchain hk
    have hdecomp : fileValues cur =
        fileValues (cur.take c) ++ fileValues (cur.drop c) := by
      rw [← fileValues_append, List.take_append_drop]
    have hdrop : (fileValues cur).drop y = fileValues (cur.drop c) := by
      rw [hdecomp, ← hy, List.drop_left]
    have hlen : (fileValues cur).length =
        y + (fileValues (cur.drop c)).length := by
      rw [hdecomp, List.length_append, hy]
    have hge : k ≤ y + (fileValues (cur.drop c)).length := by
      rw [← hlen]
      exact hk
    rw [watchGo, consumeLines_ge caster k _ y hyk hge]
    dsimp only
    rw [if_pos rfl]
    show _ = ((((fileValues cur).drop y).take (k - y)).map caster, true)
    rw [hdrop]
  | cons nxt rest' ih =>
    intro cur c y hc hy hyk hchain hk
    obtain ⟨hext, hchain'⟩ := List.chain'_cons.mp hchain
    have hfin : ((nxt :: rest').getLastD cur) = rest'.getLastD nxt :=
      List.getLastD_cons _ _ _
    have hdecomp : fileValues cur =
        fileValues (cur.take c) ++ fileValues (cur.drop c) := by
      rw [← fileValues_append, List.take_append_drop]
    obtain ⟨T, hT⟩ := chain_extendsL_getLastD (nxt :: rest') cur hchain
    have hFdrop : (fileValues ((nxt :: rest').getLastD cur)).drop y =
        fileValues (cur.drop c) ++ fileValues T := by
      rw [hT, fileValues_append, hdecomp, List.append_assoc, ← hy,
        List.drop_left]
    by_cases hcase : k ≤ y + (fileValues (cur.drop c)).length
    · rw [watchGo, consumeLines_ge caster k _ y hyk hcase]
      dsimp only
      rw [if_pos rfl, hFdrop, List.take_append_eq_append_take,
        show k - y - (fileValues (cur.drop c)).length = 0 by omega,
        List.take_zero, List.append_nil]
    · have hlt : y + (fileValues (cur.drop c)).length < k := by omega
      rw [watchGo, consumeLines_lt caster k _ y hlt]
      dsimp only
      rw [if_neg Bool.false_ne_true, if_neg (by simp)]
      have hcap : capReached (some k) (y + (fileValues (cur.drop c)).length) =
          false := by
        rw [capReached]
        simp
        omega
      rw [hcap, if_neg Bool.false_ne_true]
      rcases hext with ⟨text, hnxt⟩
      have hc' : cur.length ≤ nxt.length := by
        rw [hnxt, List.length_append]
        omega
      have hy' : (fileValues (nxt.take cur.length)).length =
          y + (fileValues (cur.drop c)).length := by
        rw [hnxt, List.take_left, hdecomp, List.length_append, hy]
      rw [ih nxt cur.length (y + (fileValues (cur.drop c)).length) hc' hy'
        (by omega) hchain' (by rw [← hfin]; exact hk)]
      rw [← hfin]
      have hFdrop' : (fileValues ((nxt :: rest').getLastD cur)).drop
          (y + (fileValues (cur.drop c)).length) = fileValues T := by
        rw [hT, fileValues_append, hdecomp, ← hy,
          ← List.length_append, List.drop_left]
      rw [hFdrop, hFdrop', List.take_append_eq_append_take,
        show List.take (k - y) (fileValues (cur.drop c)) =
          fileValues (cur.drop c) from List.take_of_length_le (by omega),
        show k - y - (fileValues (cur.drop c)).length =
          k - (y + (fileValues (cur.drop c)).length) by omega,
        List.map_append]

/-- Claim C8: following an existing signal file with a positive
max_events cap k yields exactly the first k values of the (append-only)
file in file order, each exactly once, and then the iteration
terminates; in particular the spec scenario — a file holding one line 0,
cap 2, a line 1 appended after end-of-file is reached — yields [0, 1]
and stops. -/
theorem claim_c8_follow_yields_first_k (caster : String → α) (k : ℕ)
    (s0 : List String) (rest : List (List String)) (hk0 : 0 < k)
    (hchain : List.Chain' extendsL (s0 :: rest))
    (hkv : k ≤ (fileValues (rest.getLastD s0)).length) :
    watch_probe_run caster true (some k) (s0 :: rest) =
      (((fileValues (rest.getLastD s0)).take k).map caster, true) := by
  rw [watch_probe_run]
  rw [watchGo_spec caster k rest s0 0 0 (by omega) (by simp [fileValues]) hk0
    hchain hkv]
  rw [List.drop_zero, Nat.sub_zero]

/-- Witness for claim C8 at the spec scenario: snapshots [0] then
[0, 1], cap 2, spikes caster — the consumer observes [0, 1] and the
iteration terminates. -/
theorem claim_c8_follow_yields_first_k_witness :
    0 < 2 ∧ List.Chain' extendsL [["0"], ["0", "1"]] ∧
    2 ≤ (fileValues ([["0", "1"]].getLastD ["0"])).length ∧
    watch_probe_run spikesCaster true (some 2) [["0"], ["0", "1"]] =
      (((fileValues ([["0", "1"]].getLastD ["0"])).take 2).map spikesCaster,
        true) ∧
    watch_probe_run spikesCaster true (some 2) [["0"], ["0", "1"]] =
      ([0, 1], true) := by
  have hchain : List.Chain' extendsL [["0"], ["0", "1"]] :=
    List.chain'_cons.mpr ⟨⟨["1"], rfl⟩, List.chain'_singleton _⟩
  exact ⟨by omega, hchain, by decide,
    claim_c8_follow_yields_first_k spikesCaster 2 ["0"] [["0", "1"]]
      (by omega) hchain (by decide), by decide⟩

end NemoSim
